import Mathlib

/-!
Verification development for the pigment-db storage engine: a shallow
embedding of its WAL (write-ahead log) codec, writer and readers, and of the
three durable collection engines (key-value, key-set, key-sorted-map), with
theorems checking the natural-language specification against the code.

Bytes are modelled as `List Nat`; well-formedness hypotheses record that
entries are below 256 where a claim needs it.  Machine integers (`u32`, `u64`)
are modelled as `Nat` with explicit `% 2 ^ 32` / `% 2 ^ 64` at the points
where the source truncates (`as u32`, `to_ne_bytes`).  Host byte order is
modelled as little-endian.  Panics of the source (slice out of bounds,
`unwrap`/`expect`, explicit `panic!`) are modelled by `Option`/outcome types.
-/

set_option maxRecDepth 100000

namespace PigmentDb

/-- Byte strings of the source (`Vec<u8>`, `&[u8]`); entries are byte values. -/
abbrev Bytes := List Nat

/-- Little-endian 4-byte encoding of a `u32` value (`to_ne_bytes` on the
reference host), truncating to 32 bits like `as u32`. -/
def u32le (n : Nat) : Bytes :=
  [n % 256, n / 256 % 256, n / 256 ^ 2 % 256, n / 256 ^ 3 % 256]

/-- Little-endian 8-byte encoding of a `u64` value. -/
def u64le (n : Nat) : Bytes :=
  [n % 256, n / 256 % 256, n / 256 ^ 2 % 256, n / 256 ^ 3 % 256,
   n / 256 ^ 4 % 256, n / 256 ^ 5 % 256, n / 256 ^ 6 % 256, n / 256 ^ 7 % 256]

/-- Little-endian decoding of a byte list (`from_ne_bytes`); used on 4-byte
slices for `u32` fields and 8-byte slices for `u64` fields. -/
def leDec (bs : Bytes) : Nat :=
  bs.foldr (fun b acc => b + 256 * acc) 0

/-- One shift-and-conditionally-xor round of the reflected CRC-32 (IEEE)
computation, polynomial 0xEDB88320 (as in the crc32fast crate). -/
def crcStep (c : Nat) : Nat :=
  if c % 2 = 1 then (c / 2) ^^^ 0xEDB88320 else c / 2

/-- Iterated `crcStep`. -/
def crcRounds : Nat → Nat → Nat
  | 0, c => c
  | n + 1, c => crcRounds n (crcStep c)

/-- CRC-32 (IEEE) over a byte sequence, as `wal::model::crc` computes it. -/
def crc32 (data : Bytes) : Nat :=
  (data.foldl (fun c b => crcRounds 8 (c ^^^ b)) 0xFFFFFFFF) ^^^ 0xFFFFFFFF

/-- Field widths of a WAL record (`wal::model`): `ACT_TYPE_FIELD_LEN = 1`,
`CRC32_FIELD_LEN = 4`, `DATA_SIZE_FIELD_LEN = 4`, `BLOCK_START_OFFSET_LEN = 4`,
so `FIXED_BLOCK_LEN = 13`. -/
def FIXED_BLOCK_LEN : Nat := 1 + 4 + 4 + 4

/-- Action codes of `wal::model`. -/
def DELETE_ACT : Nat := 0

/-- PUT action code. -/
def PUT_ACT : Nat := 1

/-- SET_APPEND action code. -/
def SET_APPEND_ACT : Nat := 2

/-- SET_REMOVE action code. -/
def SET_REMOVE_ACT : Nat := 3

/-- A WAL record (`wal::model::StoredAction`): action type byte, CRC-32 of the
payload, payload length as `u32`, payload, and the offset at which this record
starts in the log. -/
structure StoredAction where
  actType : Nat
  crc : Nat
  dataSize : Nat
  data : Bytes
  startOffset : Nat
deriving DecidableEq, Repr

/-- Build a record for payload `data` at offset `offset`: CRC over the payload,
`data_size = data.len() as u32`, `start_offset` the current writer offset.
Mirrors `StoredAction::put_action` / `delete_action` / `append_to_set` /
`remove_from_set`, which differ only in the action byte. -/
def mkAction (actType : Nat) (data : Bytes) (offset : Nat) : StoredAction :=
  { actType := actType, crc := crc32 data, dataSize := data.length % 2 ^ 32,
    data := data, startOffset := offset }

/-- Serialized form of a record as `wal::write` emits it: action byte, CRC,
data size, payload, start offset (integers in host byte order). -/
def encodeRecord (a : StoredAction) : Bytes :=
  a.actType :: (u32le a.crc ++ u32le a.dataSize ++ a.data ++ u32le a.startOffset)

/-- WAL writer state (`WalState`): monotonic offset counter and the append-only
sink, here the in-memory `Vec<u8>` variant. -/
structure WalState where
  offset : Nat
  writer : Bytes
deriving DecidableEq, Repr

/-- The freshly created writer (`WalStorage::new_vec_based`). -/
def walInit : WalState := { offset := 0, writer := [] }

/-- Shared append path of every `store_*_event` function: build the action at
the current offset, `write` it to the sink, then `increment_offset`
(`offset := start_offset + data_size + FIXED_BLOCK_LEN`). -/
def appendAction (st : WalState) (actType : Nat) (data : Bytes) : WalState :=
  let a := mkAction actType data st.offset
  { offset := a.startOffset + a.dataSize + FIXED_BLOCK_LEN,
    writer := st.writer ++ encodeRecord a }

/-- Serialization of `KeyValueData` by bincode 1.x with `serde_bytes`: each
byte field is an 8-byte little-endian length followed by the raw bytes. -/
def kvSerialize (key value : Bytes) : Bytes :=
  u64le key.length ++ key ++ u64le value.length ++ value

/-- Deserialization of `KeyValueData` (`bincode::deserialize`), failing when a
length field would read past the end of the input; trailing bytes are
permitted, as in bincode's legacy configuration. -/
def kvDeserialize (bs : Bytes) : Option (Bytes × Bytes) :=
  if 8 ≤ bs.length then
    let klen := leDec (bs.take 8)
    let rest := bs.drop 8
    if klen ≤ rest.length then
      let key := rest.take klen
      let rest2 := rest.drop klen
      if 8 ≤ rest2.length then
        let vlen := leDec (rest2.take 8)
        let rest3 := rest2.drop 8
        if vlen ≤ rest3.length then
          some (key, rest3.take vlen)
        else none
      else none
    else none
  else none

/-- The writer API `store_put_event` (state effect; the key/value buffers are
returned to the caller by move, which is invisible in a pure embedding). -/
def store_put_event (st : WalState) (key value : Bytes) : WalState :=
  appendAction st PUT_ACT (kvSerialize key value)

/-- The writer API `store_delete_event`: the payload is the raw key bytes. -/
def store_delete_event (st : WalState) (key : Bytes) : WalState :=
  appendAction st DELETE_ACT key

/-- The writer API `store_append_to_set_event`. -/
def store_append_to_set_event (st : WalState) (key value : Bytes) : WalState :=
  appendAction st SET_APPEND_ACT (kvSerialize key value)

/-- The writer API `store_remove_from_set_event`. -/
def store_remove_from_set_event (st : WalState) (key value : Bytes) : WalState :=
  appendAction st SET_REMOVE_ACT (kvSerialize key value)

/-- Parse one record at the head of `bytes` (`wal::build_action` at the current
offset).  `none` models the panics of the source on any out-of-bounds slice.
Returns the record and the remaining bytes (the source instead advances its
offset by `FIXED_BLOCK_LEN + data_size`). -/
def parseRecord (bytes : Bytes) : Option (StoredAction × Bytes) :=
  match bytes.head? with
  | none => none
  | some t =>
    let ds := leDec ((bytes.drop 5).take 4)
    if 13 + ds ≤ bytes.length then
      some ({ actType := t,
              crc := leDec ((bytes.drop 1).take 4),
              dataSize := ds,
              data := (bytes.drop 9).take ds,
              startOffset := leDec ((bytes.drop (9 + ds)).take 4) },
            bytes.drop (13 + ds))
    else none

theorem parseRecord_rest_lt {bytes rest : Bytes} {a : StoredAction}
    (h : parseRecord bytes = some (a, rest)) : rest.length < bytes.length := by
  unfold parseRecord at h
  cases hh : bytes.head? with
  | none => simp [hh] at h
  | some t =>
    rw [hh] at h
    by_cases hle : 13 + leDec ((bytes.drop 5).take 4) ≤ bytes.length
    · simp only [hle, if_pos] at h
      cases h
      have hne : bytes ≠ [] := by
        intro he; rw [he] at hh; simp at hh
      have hpos : 0 < bytes.length := List.length_pos.mpr hne
      simp [List.length_drop]
      omega
    · simp [hle] at h

section AssocMaps

variable {α : Type}

/-- Lookup in an association list; canonical model of `HashMap::get` /
`DashMap::get` keyed by byte strings. -/
def amFind (m : List (Bytes × α)) (k : Bytes) : Option α :=
  match m with
  | [] => none
  | (k', v) :: t => if k' = k then some v else amFind t k

/-- Overwrite-or-append insertion; canonical model of `HashMap::insert` /
`DashMap::insert` (and of in-place mutation of an occupied entry). -/
def amInsert (m : List (Bytes × α)) (k : Bytes) (v : α) : List (Bytes × α) :=
  match m with
  | [] => [(k, v)]
  | (k', v') :: t => if k' = k then (k, v) :: t else (k', v') :: amInsert t k v

/-- Remove a key; canonical model of `HashMap::remove` / entry removal (a
hash map holds each key at most once, so dropping every pair with the key is
the same operation). -/
def amErase : List (Bytes × α) → Bytes → List (Bytes × α)
  | [], _ => []
  | (k', v') :: t, k => if k' = k then amErase t k else (k', v') :: amErase t k

theorem amFind_insert_self (m : List (Bytes × α)) (k : Bytes) (v : α) :
    amFind (amInsert m k v) k = some v := by
  induction m with
  | nil => simp [amInsert, amFind]
  | cons p t ih =>
    obtain ⟨k', v'⟩ := p
    by_cases h : k' = k <;> simp [amInsert, amFind, h, ih]

theorem amFind_insert_ne (m : List (Bytes × α)) (k k2 : Bytes) (v : α)
    (h : k ≠ k2) : amFind (amInsert m k v) k2 = amFind m k2 := by
  induction m with
  | nil => simp [amInsert, amFind, h]
  | cons p t ih =>
    obtain ⟨k', v'⟩ := p
    by_cases hk : k' = k
    · subst hk; simp [amInsert, amFind, h]
    · simp [amInsert, amFind, hk, ih]

theorem amErase_insert (m : List (Bytes × α)) (k : Bytes) (v : α) :
    amErase (amInsert m k v) k = amErase m k := by
  induction m with
  | nil => simp [amInsert, amErase]
  | cons p t ih =>
    obtain ⟨k', v'⟩ := p
    by_cases h : k' = k <;> simp [amInsert, amErase, h, ih]

theorem amFind_erase_self (m : List (Bytes × α)) (k : Bytes) :
    amFind (amErase m k) k = none := by
  induction m with
  | nil => simp [amErase, amFind]
  | cons p t ih =>
    obtain ⟨k', v'⟩ := p
    by_cases h : k' = k
    · simpa [amErase, h] using ih
    · simpa [amErase, amFind, h] using ih

theorem amFind_erase_ne (m : List (Bytes × α)) (k k2 : Bytes) (h : k ≠ k2) :
    amFind (amErase m k) k2 = amFind m k2 := by
  induction m with
  | nil => simp [amErase, amFind]
  | cons p t ih =>
    obtain ⟨k', v'⟩ := p
    by_cases hk : k' = k
    · subst hk
      have hne : k' ≠ k2 := h
      simp [amErase, amFind, hne, ih]
    · by_cases hk2 : k' = k2
      · subst hk2
        simp [amErase, amFind, hk]
      · simp [amErase, amFind, hk, hk2, ih]

theorem amInsert_mem {m : List (Bytes × α)} {k : Bytes} {v : α} {p : Bytes × α}
    (h : p ∈ amInsert m k v) : p ∈ m ∨ p.2 = v := by
  induction m with
  | nil => simp [amInsert] at h; simp [h]
  | cons q t ih =>
    obtain ⟨k', v'⟩ := q
    by_cases hk : k' = k
    · simp [amInsert, hk] at h
      rcases h with h | h
      · right; simp [h]
      · left; simp [h]
    · simp [amInsert, hk] at h
      rcases h with h | h
      · left; simp [h]
      · rcases ih h with h2 | h2
        · left; simp [h2]
        · right; exact h2

theorem amErase_mem {m : List (Bytes × α)} {k : Bytes} {p : Bytes × α}
    (h : p ∈ amErase m k) : p ∈ m := by
  induction m with
  | nil => simp [amErase] at h
  | cons q t ih =>
    obtain ⟨k', v'⟩ := q
    by_cases hk : k' = k
    · simp [amErase, hk] at h
      exact List.mem_cons_of_mem _ (ih h)
    · simp only [amErase, if_neg hk, List.mem_cons] at h
      rcases h with h | h
      · exact h ▸ List.mem_cons_self _ _
      · exact List.mem_cons_of_mem _ (ih h)

end AssocMaps

/-- In-memory key-value map state reconstructed by WAL replay and held by the
KV engine (`HashMap<Vec<u8>, Vec<u8>>` / `DashMap`). -/
abbrev KvMap := List (Bytes × Bytes)

/-- Apply one record to the KV replay map as `read_forward` does: CRC check
first (mismatch panics), then DELETE removes the raw-key payload, PUT
deserializes a `KeyValueData` and inserts, any other action type panics. -/
def applyKvRecord (m : KvMap) (a : StoredAction) : Option KvMap :=
  if crc32 a.data = a.crc then
    if a.actType = DELETE_ACT then some (amErase m a.data)
    else if a.actType = PUT_ACT then
      (kvDeserialize a.data).map (fun kv => amInsert m kv.1 kv.2)
    else none
  else none

/-- Record-consuming loop of `read_forward` (offset `< len` guard; each
iteration parses one record and applies it).  `none` models a panic.  The
source loop terminates because every record consumes at least
`FIXED_BLOCK_LEN` bytes; here that argument appears as a fuel parameter that
is never exhausted when it exceeds the byte count (each parsed record
strictly shortens the remaining bytes). -/
def readFwdGo : Nat → KvMap → Bytes → Option KvMap
  | 0, _, _ => none
  | fuel + 1, m, bytes =>
    if bytes = [] then some m
    else
      match parseRecord bytes with
      | none => none
      | some (a, rest) =>
        match applyKvRecord m a with
        | none => none
        | some m' => readFwdGo fuel m' rest

/-- The KV forward scanner `wal::read_forward`. -/
def read_forward (bytes : Bytes) : Option KvMap :=
  readFwdGo (bytes.length + 1) [] bytes

/-- Canonical unordered set of byte strings (`HashSet<Vec<u8>>`): duplicate-free
list with insert-if-absent. -/
abbrev ByteSet := List Bytes

/-- `HashSet::insert`. -/
def hsInsert (s : ByteSet) (e : Bytes) : ByteSet :=
  if e ∈ s then s else e :: s

/-- `HashSet::remove`. -/
def hsRemove (s : ByteSet) (e : Bytes) : ByteSet :=
  s.filter (fun x => ¬ x = e)

/-- In-memory key-to-set map (`HashMap<Vec<u8>, HashSet<Vec<u8>>>`). -/
abbrev SetMap := List (Bytes × ByteSet)

/-- Apply one record to the set replay map as `read_for_set` does: DELETE
removes the outer key, SET_APPEND inserts into (or creates) the inner set,
SET_REMOVE removes from the inner set when the outer key is present (keeping
an empty set), anything else panics. -/
def applySetRecord (m : SetMap) (a : StoredAction) : Option SetMap :=
  if crc32 a.data = a.crc then
    if a.actType = DELETE_ACT then some (amErase m a.data)
    else if a.actType = SET_APPEND_ACT then
      (kvDeserialize a.data).map (fun kv =>
        match amFind m kv.1 with
        | none => amInsert m kv.1 (hsInsert [] kv.2)
        | some hs => amInsert m kv.1 (hsInsert hs kv.2))
    else if a.actType = SET_REMOVE_ACT then
      (kvDeserialize a.data).map (fun kv =>
        match amFind m kv.1 with
        | none => m
        | some hs => amInsert m kv.1 (hsRemove hs kv.2))
    else none
  else none

/-- Record-consuming loop of `read_for_set`; fuel as in `readFwdGo`. -/
def readSetGo : Nat → SetMap → Bytes → Option SetMap
  | 0, _, _ => none
  | fuel + 1, m, bytes =>
    if bytes = [] then some m
    else
      match parseRecord bytes with
      | none => none
      | some (a, rest) =>
        match applySetRecord m a with
        | none => none
        | some m' => readSetGo fuel m' rest

/-- The set-engine forward scanner `wal::read_for_set`. -/
def read_for_set (bytes : Bytes) : Option SetMap :=
  readSetGo (bytes.length + 1) [] bytes

/-- Outcome of `read_backward`: a reconstructed map (`Ok`), the `Err(())`
return value, a panic of the scanning thread, or divergence of the unbounded
`while` loop (possible only on logs with cyclic back-links; modelled by fuel
exhaustion). -/
inductive BwOutcome where
  | ok (m : KvMap)
  | err
  | panic
  | diverge
deriving DecidableEq, Repr

/-- Read the 4 bytes immediately below index `idx` as a `u32`
(`wal::prev_block_start_offset`).  The source's `Err` branch is unreachable: a
successful 4-wide slice always converts, and an out-of-range slice panics, so
`none` here models a panic. -/
def prev_block_start_offset (idx : Nat) (bytes : Bytes) : Option Nat :=
  if 4 ≤ idx ∧ idx ≤ bytes.length then
    some (leDec ((bytes.drop (idx - 4)).take 4))
  else none

/-- Set of keys already seen as deleted during the backward scan
(`removed_keys : HashSet<Vec<u8>>`). -/
abbrev RemovedKeys := List Bytes

/-- One record's effect in `update_backward_reading_map`: first-seen-wins.
DELETE marks the key removed unless already resolved; PUT inserts only if the
key is neither resolved nor removed; the CRC is checked (panicking on
mismatch) only on the branch that uses the record; other action types and
undeserializable PUT payloads panic (`none`). -/
def update_backward_reading_map (a : StoredAction) (m : KvMap)
    (r : RemovedKeys) : Option (KvMap × RemovedKeys) :=
  if a.actType = DELETE_ACT then
    if amFind m a.data = none then
      if crc32 a.data = a.crc then some (m, a.data :: r) else none
    else some (m, r)
  else if a.actType = PUT_ACT then
    match kvDeserialize a.data with
    | none => none
    | some (k, v) =>
      if amFind m k = none ∧ k ∉ r then
        if crc32 a.data = a.crc then some (amInsert m k v, r) else none
      else some (m, r)
  else none

/-- The `while !last_consumed` loop of `read_backward`, with `curStart` the
parsed start offset whose preceding 4 bytes locate the record to process next.
The loop body: read the back-link below `curStart`, parse the record there,
fold it into the accumulators, stop once a record with start offset 0 has been
consumed.  Fuel bounds the unbounded source loop. -/
def bwLoop : Nat → Bytes → Nat → KvMap → RemovedKeys → BwOutcome
  | 0, _, _, _, _ => .diverge
  | fuel + 1, bytes, curStart, m, r =>
    match prev_block_start_offset curStart bytes with
    | none => .panic
    | some ofs =>
      match parseRecord (bytes.drop ofs) with
      | none => .panic
      | some (a, _) =>
        match update_backward_reading_map a m r with
        | none => .panic
        | some (m', r') =>
          if a.startOffset = 0 then .ok m' else bwLoop fuel bytes a.startOffset m' r'

/-- The KV backward scanner `wal::read_backward`: start from the back-link in
the final 4 bytes of the log and walk records newest to oldest.  The source
can only ever return `Ok` or fail by panicking; its `Err(())` paths are dead
code (a `TryFromSliceError` can never be produced there). -/
def read_backward (bytes : Bytes) : BwOutcome :=
  bwLoop (bytes.length + 1) bytes bytes.length [] []

/-- The KV recovery entry point `wal::collect`: try backward, fall back to
forward only when `read_backward` returns the error value.  A panic of either
scan propagates (`none`). -/
def collect (bytes : Bytes) : Option KvMap :=
  match read_backward bytes with
  | .ok m => some m
  | .err => read_forward bytes
  | .panic => none
  | .diverge => none

/-- The `model::Key` component enum, in source declaration order.  Payloads
follow the source: `I` is `i8`, ..., `USIZE` is `usize`; note that the source's
`I128` variant holds a `u64` (not an `i128`), and `U128` holds a `u128`.
Bounded machine integers are modelled by `Int`/`Nat` (the orderings agree on
the representable ranges); `Char` holds the Unicode scalar value; `Str` holds
the UTF-8 bytes of the `String` (Rust `str` ordering is bytewise). -/
inductive Key where
  | Bool (b : Bool)
  | I (x : Int)
  | U8 (n : Nat)
  | I16 (x : Int)
  | U16 (n : Nat)
  | I32 (x : Int)
  | U32 (n : Nat)
  | I64 (x : Int)
  | U64 (n : Nat)
  | USIZE (n : Nat)
  | I128 (n : Nat)
  | U128 (n : Nat)
  | Char (c : Nat)
  | Str (s : Bytes)
  | Bytes (b : Bytes)
deriving DecidableEq, Repr

/-- Discriminant of a `Key` variant, in declaration order, as Rust's derived
`Ord` compares variants of different kinds. -/
def keyDiscriminant : Key → Nat
  | .Bool _ => 0
  | .I _ => 1
  | .U8 _ => 2
  | .I16 _ => 3
  | .U16 _ => 4
  | .I32 _ => 5
  | .U32 _ => 6
  | .I64 _ => 7
  | .U64 _ => 8
  | .USIZE _ => 9
  | .I128 _ => 10
  | .U128 _ => 11
  | .Char _ => 12
  | .Str _ => 13
  | .Bytes _ => 14

/-- Lexicographic comparison of lists by a component comparison, as slices and
`Vec`s compare in Rust (a strict prefix is smaller). -/
def listCmp (cmp : α → α → Ordering) : List α → List α → Ordering
  | [], [] => .eq
  | [], _ :: _ => .lt
  | _ :: _, [] => .gt
  | a :: as, b :: bs =>
    match cmp a b with
    | .eq => listCmp cmp as bs
    | o => o

/-- The derived `Ord` on `model::Key`: same-variant components compare by the
payload's natural order, different variants by declaration order. -/
def keyCmp (a b : Key) : Ordering :=
  match a, b with
  | .Bool x, .Bool y => compare x y
  | .I x, .I y => compare x y
  | .U8 x, .U8 y => compare x y
  | .I16 x, .I16 y => compare x y
  | .U16 x, .U16 y => compare x y
  | .I32 x, .I32 y => compare x y
  | .U32 x, .U32 y => compare x y
  | .I64 x, .I64 y => compare x y
  | .U64 x, .U64 y => compare x y
  | .USIZE x, .USIZE y => compare x y
  | .I128 x, .I128 y => compare x y
  | .U128 x, .U128 y => compare x y
  | .Char x, .Char y => compare x y
  | .Str x, .Str y => listCmp compare x y
  | .Bytes x, .Bytes y => listCmp compare x y
  | _, _ => compare (keyDiscriminant a) (keyDiscriminant b)

/-- The `model::SearchKey` composite key: an ordered sequence of components
(`SearchKey(Vec<Key>)`). -/
structure SearchKey where
  keys : List Key
deriving DecidableEq, Repr

/-- The `Ord` impl of `SearchKey`: `self.0.cmp(&other.0)`, lexicographic over
the component sequence. -/
def searchKeyCmp (a b : SearchKey) : Ordering :=
  listCmp keyCmp a.keys b.keys

/-- The single-component `SearchKey` built by `From<usize>`
(`SearchKey(vec![Key::USIZE(value)])`), used by `append_ordered_element`. -/
def skUsize (n : Nat) : SearchKey :=
  ⟨[Key.USIZE n]⟩

/-- Inner container of the sorted-map engine
(`BTreeMap<SearchKey, Vec<u8>>`): an association list kept sorted by
`searchKeyCmp`. -/
abbrev SMap := List (SearchKey × Bytes)

/-- `BTreeMap::get`. -/
def smFind (m : SMap) (k : SearchKey) : Option Bytes :=
  match m with
  | [] => none
  | (k', v) :: t => match searchKeyCmp k k' with
    | .eq => some v
    | _ => smFind t k

/-- `BTreeMap::insert` (overwrites the value on an equal key). -/
def smInsert : SMap → SearchKey → Bytes → SMap
  | [], k, v => [(k, v)]
  | (k', v') :: t, k, v =>
    match searchKeyCmp k k' with
    | .lt => (k, v) :: (k', v') :: t
    | .eq => (k', v) :: t
    | .gt => (k', v') :: smInsert t k v

/-- `BTreeMap::remove` (the structural part; the returned old value is
`smFind`). -/
def smRemove : SMap → SearchKey → SMap
  | [], _ => []
  | (k', v') :: t, k =>
    match searchKeyCmp k k' with
    | .eq => t
    | _ => (k', v') :: smRemove t k

/-- `BTreeMap::pop_first`: the minimal entry is at the head. -/
def smPopFirst (m : SMap) : Option ((SearchKey × Bytes) × SMap) :=
  match m with
  | [] => none
  | h :: t => some (h, t)

/-- `BTreeMap::pop_last`. -/
def smPopLast : SMap → Option ((SearchKey × Bytes) × SMap)
  | [] => none
  | [h] => some (h, [])
  | h :: h2 :: t =>
    match smPopLast (h2 :: t) with
    | none => none
    | some (p, rest) => some (p, h :: rest)

/-- `BTreeMap::last_entry` / `last_key_value` (the maximal entry). -/
def smLast (m : SMap) : Option (SearchKey × Bytes) :=
  m.getLast?

/-- The durable KV engine (`key_value_store::DurableKeyValueStore`), in its
in-memory-sink configuration: sharded map plus WAL writer.  The sharding and
locking are concurrency mechanics invisible to the sequential semantics. -/
structure DurableKeyValueStore where
  store : KvMap
  wal : WalState
deriving DecidableEq, Repr

namespace KV

/-- `DurableKeyValueStore::new_vec_based`. -/
def init : DurableKeyValueStore := { store := [], wal := walInit }

/-- `put`: WAL PUT event, then insert (overwrite). -/
def put (s : DurableKeyValueStore) (key value : Bytes) : DurableKeyValueStore :=
  { wal := store_put_event s.wal key value, store := amInsert s.store key value }

/-- `compute`: read the current value under the entry lock, apply the caller's
function, WAL PUT the new value, install it (occupied and vacant entries both
insert the function's result). -/
def compute (s : DurableKeyValueStore) (key : Bytes)
    (func : Option Bytes → Bytes) : DurableKeyValueStore :=
  let newVal := func (amFind s.store key)
  { wal := store_put_event s.wal key newVal, store := amInsert s.store key newVal }

/-- `increment_or_init`: an existing value must be exactly 8 bytes (else
`Err(())` and no state change); absent keys start from the increment.  The
new value is stored as 8 host-order bytes after a WAL PUT. -/
def increment_or_init (s : DurableKeyValueStore) (key : Bytes)
    (incrementBy : Nat) : DurableKeyValueStore × Option Nat :=
  match amFind s.store key with
  | some bytes =>
    if bytes.length = 8 then
      let newNum := leDec bytes + incrementBy
      let newBytes := u64le newNum
      ({ wal := store_put_event s.wal key newBytes,
         store := amInsert s.store key newBytes }, some newNum)
    else (s, none)
  | none =>
    let newBytes := u64le incrementBy
    ({ wal := store_put_event s.wal key newBytes,
       store := amInsert s.store key newBytes }, some incrementBy)

/-- `decrement`: absent key is a no-op (`None`); a non-8-byte value is
`Some(Err(()))` with no state change; otherwise saturating subtraction,
WAL PUT, install. -/
def decrement (s : DurableKeyValueStore) (key : Bytes)
    (decrementBy : Nat) : DurableKeyValueStore × Option (Option Nat) :=
  match amFind s.store key with
  | none => (s, none)
  | some bytes =>
    if bytes.length = 8 then
      let curNum := leDec bytes
      let newNum := if decrementBy ≥ curNum then 0 else curNum - decrementBy
      let newBytes := u64le newNum
      ({ wal := store_put_event s.wal key newBytes,
         store := amInsert s.store key newBytes }, some (some newNum))
    else (s, some none)

/-- `set_number`: 8-byte encode, WAL PUT, insert. -/
def set_number (s : DurableKeyValueStore) (key : Bytes) (number : Nat) :
    DurableKeyValueStore :=
  { wal := store_put_event s.wal key (u64le number),
    store := amInsert s.store key (u64le number) }

/-- `remove`: WAL DELETE event, then remove. -/
def remove (s : DurableKeyValueStore) (key : Bytes) : DurableKeyValueStore :=
  { wal := store_delete_event s.wal key, store := amErase s.store key }

end KV

/-- One mutating operation of the KV engine's public surface. -/
inductive KvOp where
  | put (k v : Bytes)
  | compute (k : Bytes) (f : Option Bytes → Bytes)
  | increment_or_init (k : Bytes) (n : Nat)
  | decrement (k : Bytes) (n : Nat)
  | set_number (k : Bytes) (n : Nat)
  | remove (k : Bytes)

/-- Apply one KV operation (discarding the returned values). -/
def kvStep (s : DurableKeyValueStore) : KvOp → DurableKeyValueStore
  | .put k v => KV.put s k v
  | .compute k f => KV.compute s k f
  | .increment_or_init k n => (KV.increment_or_init s k n).1
  | .decrement k n => (KV.decrement s k n).1
  | .set_number k n => KV.set_number s k n
  | .remove k => KV.remove s k

/-- Run a sequence of KV operations on a freshly created engine. -/
def runKv (ops : List KvOp) : DurableKeyValueStore :=
  ops.foldl kvStep KV.init

/-- The durable key-set engine (`key_set_store::DurableKeySetStore`). -/
structure DurableKeySetStore where
  store : SetMap
  wal : WalState
deriving DecidableEq, Repr

namespace KSet

/-- `DurableKeySetStore::new_vec_based`. -/
def init : DurableKeySetStore := { store := [], wal := walInit }

/-- `append`: WAL SET_APPEND event; create the inner set on first insertion. -/
def append (s : DurableKeySetStore) (key val : Bytes) : DurableKeySetStore :=
  { wal := store_append_to_set_event s.wal key val,
    store :=
      match amFind s.store key with
      | none => amInsert s.store key (hsInsert [] val)
      | some hs => amInsert s.store key (hsInsert hs val) }

/-- `remove_from_set`: WAL SET_REMOVE event first (even for an absent outer
key); on an occupied entry remove the element, and if the set became empty,
WAL DELETE and drop the outer key. -/
def remove_from_set (s : DurableKeySetStore) (key setEntry : Bytes) :
    DurableKeySetStore :=
  let wal1 := store_remove_from_set_event s.wal key setEntry
  match amFind s.store key with
  | none => { store := s.store, wal := wal1 }
  | some hs =>
    let hs' := hsRemove hs setEntry
    if hs' = [] then
      { store := amErase s.store key, wal := store_delete_event wal1 key }
    else
      { store := amInsert s.store key hs', wal := wal1 }

/-- `remove_from_set_callback`: identical state effect to `remove_from_set`;
the callback observes but does not change engine state. -/
def remove_from_set_callback (s : DurableKeySetStore) (key setEntry : Bytes)
    (keyRemovedCallback : Bytes → Unit) : DurableKeySetStore :=
  let _ := keyRemovedCallback
  remove_from_set s key setEntry

/-- `remove_key`: WAL DELETE event, then remove the outer key. -/
def remove_key (s : DurableKeySetStore) (key : Bytes) : DurableKeySetStore :=
  { wal := store_delete_event s.wal key, store := amErase s.store key }

/-- `compute`: under the entry lock the caller's function transforms the inner
set in place; a vacant entry gets a fresh empty set which is inserted even if
the function leaves it empty.  No WAL record is written. -/
def compute (s : DurableKeySetStore) (key : Bytes)
    (func : ByteSet → ByteSet) : DurableKeySetStore :=
  { wal := s.wal,
    store :=
      match amFind s.store key with
      | some hs => amInsert s.store key (func hs)
      | none => amInsert s.store key (func []) }

/-- `compute_if_present`: as `compute` but a vacant entry is untouched. -/
def compute_if_present (s : DurableKeySetStore) (key : Bytes)
    (func : ByteSet → ByteSet) : DurableKeySetStore :=
  { wal := s.wal,
    store :=
      match amFind s.store key with
      | some hs => amInsert s.store key (func hs)
      | none => s.store }

/-- `compute_if_absent`: as `compute` but an occupied entry is untouched. -/
def compute_if_absent (s : DurableKeySetStore) (key : Bytes)
    (func : ByteSet → ByteSet) : DurableKeySetStore :=
  { wal := s.wal,
    store :=
      match amFind s.store key with
      | some _ => s.store
      | none => amInsert s.store key (func []) }

end KSet

/-- One WAL-logged mutating operation of the key-set engine (the `compute`
family is not WAL-logged and is treated separately). -/
inductive SetOp where
  | append (k v : Bytes)
  | remove_from_set (k v : Bytes)
  | remove_from_set_callback (k v : Bytes)
  | remove_key (k : Bytes)

/-- Apply one key-set operation. -/
def setStep (s : DurableKeySetStore) : SetOp → DurableKeySetStore
  | .append k v => KSet.append s k v
  | .remove_from_set k v => KSet.remove_from_set s k v
  | .remove_from_set_callback k v => KSet.remove_from_set_callback s k v (fun _ => ())
  | .remove_key k => KSet.remove_key s k

/-- Run a sequence of key-set operations on a freshly created engine. -/
def runSet (ops : List SetOp) : DurableKeySetStore :=
  ops.foldl setStep KSet.init

/-- Fixed-width little-endian encoding of a natural number. -/
def natLe : Nat → Nat → Bytes
  | 0, _ => []
  | w + 1, n => n % 256 :: natLe w (n / 256)

/-- Fixed-width little-endian two's-complement encoding of an integer. -/
def intLe (w : Nat) (x : Int) : Bytes :=
  natLe w (x % (2 ^ (8 * w))).toNat

/-- Modelled from the spec: the serialization of one `SearchKey` component — a
1-byte variant tag followed by the variant's natural serialization
(fixed-width for numeric variants, 8-byte length prefix then bytes for
Str/Bytes), §6.  The serializer itself is not under src; only its callers
are.  The encoding's exact shape is never load-bearing in the theorems. -/
def serializeKeyComp (k : Key) : Bytes :=
  keyDiscriminant k ::
    match k with
    | .Bool b => [if b then 1 else 0]
    | .I x => intLe 1 x
    | .U8 n => natLe 1 n
    | .I16 x => intLe 2 x
    | .U16 n => natLe 2 n
    | .I32 x => intLe 4 x
    | .U32 n => natLe 4 n
    | .I64 x => intLe 8 x
    | .U64 n => natLe 8 n
    | .USIZE n => natLe 8 n
    | .I128 n => natLe 16 n
    | .U128 n => natLe 16 n
    | .Char c => natLe 4 c
    | .Str s => u64le s.length ++ s
    | .Bytes b => u64le b.length ++ b

/-- Modelled from the spec: a `SearchKey` serializes as an 8-byte component
count followed by the serialized components (§6). -/
def serializeSearchKey (sk : SearchKey) : Bytes :=
  u64le sk.keys.length ++ (sk.keys.map serializeKeyComp).flatten

/-- Modelled from the spec: payload of a sorted-map insertion — the serialized
`SortedMapEntry { key, search_key, value }` struct (§4.1, §6). -/
def serializeSortedMapEntry (key : Bytes) (sk : SearchKey) (value : Bytes) :
    Bytes :=
  u64le key.length ++ key ++ serializeSearchKey sk ++ u64le value.length ++ value

/-- Modelled from the spec: payload of a sorted-map removal — the serialized
`SortedMapKey { key, search_key }` struct (§4.1, §9). -/
def serializeSortedMapKey (key : Bytes) (sk : SearchKey) : Bytes :=
  u64le key.length ++ key ++ serializeSearchKey sk

/-- Modelled from the spec: `store_put_to_map_event` is called by
`key_map_store` but its body is not under src.  Per §4.1/§4.2 it appends one
PUT-shaped record whose payload is the serialized `SortedMapEntry`, and
returns the caller's `(key, search_key, value)` buffers back by move. -/
def store_put_to_map_event (st : WalState) (key : Bytes) (sk : SearchKey)
    (value : Bytes) : WalState × (Bytes × SearchKey × Bytes) :=
  (appendAction st PUT_ACT (serializeSortedMapEntry key sk value),
   (key, sk, value))

/-- Modelled from the spec: `store_remove_from_sorted_map_event` is called by
`key_map_store` but its body is not under src.  Per §4.1/§9 it appends one
PUT-shaped record whose payload is the serialized `SortedMapKey` (the source
reuses the PUT action code for sorted-map events), and returns the caller's
`(key, search_key)` buffers back by move — this order is forced by the
destructuring `let (key, search_key) = ...` in `remove_from_sorted_map`. -/
def store_remove_from_sorted_map_event (st : WalState) (key : Bytes)
    (sk : SearchKey) : WalState × (Bytes × SearchKey) :=
  (appendAction st PUT_ACT (serializeSortedMapKey key sk), (key, sk))

/-- The durable sorted-map engine (`key_map_store::DurableKeyMapStore`). -/
structure DurableKeyMapStore where
  store : List (Bytes × SMap)
  wal : WalState
deriving DecidableEq, Repr

namespace KMap

/-- `DurableKeyMapStore::new_vec_based`. -/
def init : DurableKeyMapStore := { store := [], wal := walInit }

/-- `put`: WAL put-to-map event, then insert (overwrite at the search key),
creating the inner map on first insertion. -/
def put (s : DurableKeyMapStore) (key : Bytes) (sk : SearchKey) (val : Bytes) :
    DurableKeyMapStore :=
  let (wal1, (key, sk, val)) := store_put_to_map_event s.wal key sk val
  { wal := wal1,
    store :=
      match amFind s.store key with
      | none => amInsert s.store key (smInsert [] sk val)
      | some m => amInsert s.store key (smInsert m sk val) }

/-- `remove_from_sorted_map`: WAL remove event first; on an occupied entry
remove the search key (returning the old value), and if the inner map became
empty, WAL DELETE and drop the outer key. -/
def remove_from_sorted_map (s : DurableKeyMapStore) (key : Bytes)
    (sk : SearchKey) : DurableKeyMapStore × Option Bytes :=
  let (wal1, (key, sk)) := store_remove_from_sorted_map_event s.wal key sk
  match amFind s.store key with
  | none => ({ store := s.store, wal := wal1 }, none)
  | some m =>
    let oldValue := smFind m sk
    let m' := smRemove m sk
    if m' = [] then
      ({ store := amErase s.store key, wal := store_delete_event wal1 key },
       oldValue)
    else
      ({ store := amInsert s.store key m', wal := wal1 }, oldValue)

/-- `remove_from_sorted_map_callback`: identical state effect. -/
def remove_from_sorted_map_callback (s : DurableKeyMapStore) (key : Bytes)
    (sk : SearchKey) : DurableKeyMapStore :=
  (remove_from_sorted_map s key sk).1

/-- `remove_key`: WAL DELETE event, then remove the outer key. -/
def remove_key (s : DurableKeyMapStore) (key : Bytes) : DurableKeyMapStore :=
  { wal := store_delete_event s.wal key, store := amErase s.store key }

/-- `pop_first`: pop the minimal entry of the inner map; a WAL remove event is
written and its moved-back buffers are destructured as
`let (element, search_key) = ...`, so the returned pair is
`(search_key, element)` where `element` is the moved-back **outer key** — the
popped value `_element` is discarded.  If the inner map is (or becomes)
empty, WAL DELETE and drop the outer key. -/
def pop_first (s : DurableKeyMapStore) (key : Bytes) :
    DurableKeyMapStore × Option (SearchKey × Bytes) :=
  match amFind s.store key with
  | none => (s, none)
  | some m =>
    match smPopFirst m with
    | none =>
      ({ store := amErase s.store key, wal := store_delete_event s.wal key },
       none)
    | some ((sk, _element), rest) =>
      let (wal1, (element, searchKey)) :=
        store_remove_from_sorted_map_event s.wal key sk
      let result := some (searchKey, element)
      if rest = [] then
        ({ store := amErase s.store key, wal := store_delete_event wal1 key },
         result)
      else
        ({ store := amInsert s.store key rest, wal := wal1 }, result)

/-- `pop_last`: symmetric to `pop_first`, popping the maximal entry, with the
same swapped return pair. -/
def pop_last (s : DurableKeyMapStore) (key : Bytes) :
    DurableKeyMapStore × Option (SearchKey × Bytes) :=
  match amFind s.store key with
  | none => (s, none)
  | some m =>
    match smPopLast m with
    | none =>
      ({ store := amErase s.store key, wal := store_delete_event s.wal key },
       none)
    | some ((sk, _element), rest) =>
      let (wal1, (element, searchKey)) :=
        store_remove_from_sorted_map_event s.wal key sk
      let result := some (searchKey, element)
      if rest = [] then
        ({ store := amErase s.store key, wal := store_delete_event wal1 key },
         result)
      else
        ({ store := amInsert s.store key rest, wal := wal1 }, result)

/-- `append_ordered_element`: on an occupied entry, look at the largest
`SearchKey` of the inner map; `last_entry.key().first().unwrap()` panics
(`none`) when that key has no components; if the **first** component is
`USIZE(count)` the new index is `count + 1` computed in `usize` — a wrapping
addition modulo `2^64` in release builds — otherwise 0.  A vacant entry (or
an occupied one whose map is empty) starts at 0.  The element is inserted
after a WAL put-to-map event at `SearchKey(vec![USIZE(index)])`. -/
def append_ordered_element (s : DurableKeyMapStore) (key element : Bytes) :
    Option DurableKeyMapStore :=
  match amFind s.store key with
  | some m =>
    match smLast m with
    | some lastEntry =>
      match lastEntry.1.keys.head? with
      | none => none
      | some c =>
        let curNum :=
          match c with | .USIZE count => (count + 1) % 2 ^ 64 | _ => 0
        let (wal1, (_key, sk, el)) :=
          store_put_to_map_event s.wal key (skUsize curNum) element
        some { wal := wal1, store := amInsert s.store key (smInsert m sk el) }
    | none =>
      let (wal1, (_key, sk, el)) :=
        store_put_to_map_event s.wal key (skUsize 0) element
      some { wal := wal1, store := amInsert s.store key (smInsert m sk el) }
  | none =>
    let (wal1, (_key, sk, el)) :=
      store_put_to_map_event s.wal key (skUsize 0) element
    some { wal := wal1, store := amInsert s.store key (smInsert [] sk el) }

/-- `compute` on the sorted-map engine: in-place transformation of the inner
map under the entry lock; a vacant entry gets a fresh empty map which is
inserted even if the function leaves it empty.  No WAL record is written. -/
def compute (s : DurableKeyMapStore) (key : Bytes) (func : SMap → SMap) :
    DurableKeyMapStore :=
  { wal := s.wal,
    store :=
      match amFind s.store key with
      | some m => amInsert s.store key (func m)
      | none => amInsert s.store key (func []) }

/-- `compute_if_present` on the sorted-map engine. -/
def compute_if_present (s : DurableKeyMapStore) (key : Bytes)
    (func : SMap → SMap) : DurableKeyMapStore :=
  { wal := s.wal,
    store :=
      match amFind s.store key with
      | some m => amInsert s.store key (func m)
      | none => s.store }

/-- `compute_if_absent` on the sorted-map engine. -/
def compute_if_absent (s : DurableKeyMapStore) (key : Bytes)
    (func : SMap → SMap) : DurableKeyMapStore :=
  { wal := s.wal,
    store :=
      match amFind s.store key with
      | some _ => s.store
      | none => amInsert s.store key (func []) }

end KMap

/-- One WAL-logged mutating operation of the sorted-map engine (the `compute`
family is not WAL-logged and is treated separately). -/
inductive MapOp where
  | put (k : Bytes) (sk : SearchKey) (v : Bytes)
  | remove_from_sorted_map (k : Bytes) (sk : SearchKey)
  | remove_from_sorted_map_callback (k : Bytes) (sk : SearchKey)
  | remove_key (k : Bytes)
  | pop_first (k : Bytes)
  | pop_last (k : Bytes)
  | append_ordered_element (k v : Bytes)

/-- Apply one sorted-map operation; `none` models the `unwrap` panic inside
`append_ordered_element` on a component-less largest key. -/
def mapStep (s : DurableKeyMapStore) : MapOp → Option DurableKeyMapStore
  | .put k sk v => some (KMap.put s k sk v)
  | .remove_from_sorted_map k sk => some (KMap.remove_from_sorted_map s k sk).1
  | .remove_from_sorted_map_callback k sk =>
    some (KMap.remove_from_sorted_map_callback s k sk)
  | .remove_key k => some (KMap.remove_key s k)
  | .pop_first k => some (KMap.pop_first s k).1
  | .pop_last k => some (KMap.pop_last s k).1
  | .append_ordered_element k v => KMap.append_ordered_element s k v

/-- Run a sequence of sorted-map operations on a freshly created engine;
`none` when some step panicked. -/
def runMap (ops : List MapOp) : Option DurableKeyMapStore :=
  ops.foldl (fun acc op => acc.bind (fun s => mapStep s op)) (some KMap.init)

/-! ### Claim C3: error handling of the backward scan -/

theorem bwLoop_ne_err (fuel : Nat) :
    ∀ (bytes : Bytes) (c : Nat) (m : KvMap) (r : RemovedKeys),
      bwLoop fuel bytes c m r ≠ .err := by
  induction fuel with
  | zero => intro bytes c m r; simp [bwLoop]
  | succ n ih =>
    intro bytes c m r
    simp only [bwLoop]
    cases prev_block_start_offset c bytes with
    | none => simp
    | some ofs =>
      simp only
      cases parseRecord (bytes.drop ofs) with
      | none => simp
      | some p =>
        simp only
        cases update_backward_reading_map p.1 m r with
        | none => simp
        | some mr =>
          simp only
          by_cases h : p.1.startOffset = 0
          · simp [h]
          · simp [h, ih]

/-- A KV WAL holding a single PUT record for key `"a"`, value `"A"`, with the
final payload byte flipped from 65 to 66 so that the stored CRC no longer
matches the payload. -/
def c3CorruptBytes : Bytes :=
  ((store_put_event walInit [97] [65]).writer).set 26 66

/-- Claim C3, code evidence: a CRC mismatch during the backward scan makes
`read_backward` panic (the `panic!("not valid crc")` in
`update_backward_reading_map`) instead of returning the error value, so
`collect` never reaches its forward-scan fallback; moreover no input at all
can make `read_backward` return the error value — its `Err` paths are dead
code — and the forward scan also panics on this input rather than reporting a
recoverable error. -/
theorem c3_crc_failure_panics :
    read_backward c3CorruptBytes = .panic ∧
    collect c3CorruptBytes = none ∧
    read_forward c3CorruptBytes = none ∧
    ∀ bs : Bytes, read_backward bs ≠ .err := by
  refine ⟨by decide, by decide, by decide, ?_⟩
  intro bs
  exact bwLoop_ne_err _ bs bs.length [] []

/-! ### Claim C5: pop_first / pop_last return value -/

/-- A sorted-map engine state with outer key `"k"` (byte 107) holding the two
entries `USIZE(1) ↦ "a"` (byte 97) and `USIZE(2) ↦ "b"` (byte 98), built
through the public `put` operation. -/
def c5Store : DurableKeyMapStore :=
  KMap.put (KMap.put KMap.init [107] (skUsize 1) [97]) [107] (skUsize 2) [98]

/-- Claim C5, code evidence: `pop_first` does remove the minimal entry (the
remaining inner map holds only `USIZE(2) ↦ "b"`), but the returned pair is
`(USIZE(1), "k")` — the second component is the moved-back **outer key**, not
the stored value `"a"`, which is discarded. -/
theorem c5_pop_first_returns_outer_key :
    (KMap.pop_first c5Store [107]).2 = some (skUsize 1, [107]) ∧
    (KMap.pop_first c5Store [107]).2 ≠ some (skUsize 1, [97]) ∧
    (KMap.pop_first c5Store [107]).1.store = [([107], [(skUsize 2, [98])])] := by
  refine ⟨by decide, by decide, by decide⟩

/-! ### Claim C9: the compute family writes no WAL record -/

/-- Claim C9: `compute`, `compute_if_present` and `compute_if_absent` on the
key-set and sorted-map engines leave the WAL writer state (byte sequence and
offset counter) completely unchanged, for every key and callback. -/
theorem c9_compute_family_preserves_wal :
    ∀ (s : DurableKeySetStore) (s2 : DurableKeyMapStore) (k : Bytes)
      (f : ByteSet → ByteSet) (g : SMap → SMap),
      (KSet.compute s k f).wal = s.wal ∧
      (KSet.compute_if_present s k f).wal = s.wal ∧
      (KSet.compute_if_absent s k f).wal = s.wal ∧
      (KMap.compute s2 k g).wal = s2.wal ∧
      (KMap.compute_if_present s2 k g).wal = s2.wal ∧
      (KMap.compute_if_absent s2 k g).wal = s2.wal := by
  intro s s2 k f g
  exact ⟨rfl, rfl, rfl, rfl, rfl, rfl⟩

/-! ### Claim C10: remove_from_set on an absent outer key -/

/-- Claim C10: when the outer key is absent, `remove_from_set` still appends
exactly one SET_REMOVE record to the WAL (and in particular no DELETE
record), leaves the in-memory map unchanged, and returns normally. -/
theorem c10_remove_absent_key (st : DurableKeySetStore) (k e : Bytes)
    (h : amFind st.store k = none) :
    (KSet.remove_from_set st k e).store = st.store ∧
    (KSet.remove_from_set st k e).wal.writer =
      st.wal.writer ++
        encodeRecord (mkAction SET_REMOVE_ACT (kvSerialize k e) st.wal.offset) ∧
    (KSet.remove_from_set st k e).wal.offset =
      st.wal.offset + (kvSerialize k e).length % 2 ^ 32 + FIXED_BLOCK_LEN := by
  unfold KSet.remove_from_set
  rw [h]
  exact ⟨rfl, rfl, rfl⟩

theorem c10_remove_absent_key_witness :
    (KSet.remove_from_set KSet.init [0] [1]).store = KSet.init.store ∧
    (KSet.remove_from_set KSet.init [0] [1]).wal.writer =
      KSet.init.wal.writer ++
        encodeRecord (mkAction SET_REMOVE_ACT (kvSerialize [0] [1])
          KSet.init.wal.offset) ∧
    (KSet.remove_from_set KSet.init [0] [1]).wal.offset =
      KSet.init.wal.offset + (kvSerialize [0] [1]).length % 2 ^ 32 +
        FIXED_BLOCK_LEN :=
  c10_remove_absent_key KSet.init [0] [1] (by decide)

/-! ### Claim C1, counterexample: set-engine compute breaks replay equality -/

/-- Claim C1, counterexample: a single `compute` call that inserts element
`[1]` under outer key `[0]` mutates the in-memory state but writes nothing to
the WAL, so the forward replay of the WAL (the empty map) differs from the
final in-memory state even when sets are compared extensionally: key `[0]` is
live in memory with a non-empty set but absent from the replay. -/
theorem c1_counterexample_compute_not_replayed :
    (KSet.compute KSet.init [0] (fun s => hsInsert s [1])).wal.writer = [] ∧
    read_for_set
        (KSet.compute KSet.init [0] (fun s => hsInsert s [1])).wal.writer =
      some [] ∧
    (KSet.compute KSet.init [0] (fun s => hsInsert s [1])).store =
      [([0], [[1]])] := by
  refine ⟨rfl, rfl, rfl⟩

/-- Forward replay is sound on the empty log (so the preceding counterexample
is genuinely about the missing record, not about replay of empty input). -/
theorem read_for_set_nil : read_for_set [] = some [] := rfl

/-! ### Claim C4, counterexample: compute can leave an empty inner container -/

/-- Claim C4, counterexample: from the empty store, the single public
operation `compute [0] (fun s => s)` (a callback that leaves the set as it
found it) produces a state in which the outer key `[0]` is present and its
inner container is empty — the claimed invariant fails on a reachable
state. -/
theorem c4_counterexample_compute_empty_container :
    amFind (KSet.compute KSet.init [0] (fun s => s)).store [0] = some [] := by
  decide

/-! ### Claim C6, counterexample: only the first component is inspected -/

/-- A sorted-map engine state whose inner map under key `[0]` has largest
`SearchKey` `[USIZE 5, Bool true]` — a multi-component key, hence not a
single-component platform-unsigned integer. -/
def c6Store : DurableKeyMapStore :=
  KMap.put KMap.init [0] ⟨[Key.USIZE 5, Key.Bool true]⟩ [1]

/-- Claim C6, counterexample: with the largest key `[USIZE 5, Bool true]`
(which is not a single-component `USIZE`), `append_ordered_element` inserts
at `USIZE 6` — it inspects only the **first** component — where the claim
requires insertion at `USIZE 0`. -/
theorem c6_counterexample_multi_component_largest :
    ((KMap.append_ordered_element c6Store [0] [7]).map fun st =>
        (amFind st.store [0]).map fun m =>
          (smFind m (skUsize 0), smFind m (skUsize 6))) =
      some (some (none, some [7])) ∧
    ((amFind c6Store.store [0]).map fun m => smLast m) =
      some (some (⟨[Key.USIZE 5, Key.Bool true]⟩, [1])) := by
  refine ⟨by decide, by decide⟩

/-! ### Claim C7, counterexample: variant-tag order of USIZE vs I128/U128 -/

/-- Rank of a `Key` variant in the order the claim (and spec §3) states:
boolean, signed/unsigned 8/16/32/64/128-bit integers, then the platform-sized
unsigned integer, then Unicode scalar, string, bytes.  Definition written
from the claim's words, for comparison with the source ordering. -/
def specVariantRank : Key → Nat
  | .Bool _ => 0
  | .I _ => 1
  | .U8 _ => 2
  | .I16 _ => 3
  | .U16 _ => 4
  | .I32 _ => 5
  | .U32 _ => 6
  | .I64 _ => 7
  | .U64 _ => 8
  | .I128 _ => 9
  | .U128 _ => 10
  | .USIZE _ => 11
  | .Char _ => 12
  | .Str _ => 13
  | .Bytes _ => 14

/-- Component comparison as the claim states it: different variants by the
spec's enumeration order, same variant by the payload's natural order. -/
def specKeyCmp (a b : Key) : Ordering :=
  match a, b with
  | .Bool x, .Bool y => compare x y
  | .I x, .I y => compare x y
  | .U8 x, .U8 y => compare x y
  | .I16 x, .I16 y => compare x y
  | .U16 x, .U16 y => compare x y
  | .I32 x, .I32 y => compare x y
  | .U32 x, .U32 y => compare x y
  | .I64 x, .I64 y => compare x y
  | .U64 x, .U64 y => compare x y
  | .USIZE x, .USIZE y => compare x y
  | .I128 x, .I128 y => compare x y
  | .U128 x, .U128 y => compare x y
  | .Char x, .Char y => compare x y
  | .Str x, .Str y => listCmp compare x y
  | .Bytes x, .Bytes y => listCmp compare x y
  | _, _ => compare (specVariantRank a) (specVariantRank b)

/-- SearchKey comparison as the claim states it: lexicographic over the
component sequence with `specKeyCmp` at the component level. -/
def specSearchKeyCmp (a b : SearchKey) : Ordering :=
  listCmp specKeyCmp a.keys b.keys

/-- Claim C7, counterexample: the source orders `USIZE` components **below**
`I128` components (declaration order of the enum), while the claim's variant
enumeration places the 128-bit integers before the platform-sized unsigned
integer; the two comparisons disagree on `[USIZE 0]` vs `[I128 0]`. -/
theorem c7_counterexample_usize_before_i128 :
    searchKeyCmp ⟨[Key.USIZE 0]⟩ ⟨[Key.I128 0]⟩ = .lt ∧
    specSearchKeyCmp ⟨[Key.USIZE 0]⟩ ⟨[Key.I128 0]⟩ = .gt ∧
    searchKeyCmp ⟨[Key.USIZE 0]⟩ ⟨[Key.I128 0]⟩ ≠
      specSearchKeyCmp ⟨[Key.USIZE 0]⟩ ⟨[Key.I128 0]⟩ := by
  refine ⟨by decide, by decide, by decide⟩

/-! ### Claim C8: records tile the log; start offsets -/

/-- Apply a sequence of `(action byte, payload)` store events through the
writer; every `store_*_event` function is `appendAction` at a specific action
byte and payload. -/
def walAppendAll (st : WalState) (l : List (Nat × Bytes)) : WalState :=
  l.foldl (fun st p => appendAction st p.1 p.2) st

/-- The records such a sequence produces, with their accumulated start
offsets. -/
def chunkRecs (ofs : Nat) : List (Nat × Bytes) → List StoredAction
  | [] => []
  | (t, d) :: tl =>
    mkAction t d ofs :: chunkRecs (ofs + d.length % 2 ^ 32 + FIXED_BLOCK_LEN) tl

/-- Concatenated serialization of a record list. -/
def recsBytes (recs : List StoredAction) : Bytes :=
  (recs.map encodeRecord).flatten

theorem encodeRecord_length (a : StoredAction) :
    (encodeRecord a).length = FIXED_BLOCK_LEN + a.data.length := by
  simp [encodeRecord, u32le, FIXED_BLOCK_LEN]
  omega

theorem walAppendAll_writer (l : List (Nat × Bytes)) :
    ∀ st : WalState,
      (walAppendAll st l).writer =
        st.writer ++ recsBytes (chunkRecs st.offset l) := by
  induction l with
  | nil => intro st; simp [walAppendAll, chunkRecs, recsBytes]
  | cons p tl ih =>
    intro st
    obtain ⟨t, d⟩ := p
    have step : walAppendAll st ((t, d) :: tl) =
        walAppendAll (appendAction st t d) tl := rfl
    rw [step, ih]
    simp [appendAction, chunkRecs, recsBytes, mkAction]

theorem chunkRecs_start_positions (l : List (Nat × Bytes))
    (h : ∀ p ∈ l, p.2.length < 2 ^ 32) :
    ∀ (ofs : Nat) (i : Nat) (hi : i < (chunkRecs ofs l).length),
      ((chunkRecs ofs l).get ⟨i, hi⟩).startOffset =
        ofs + (recsBytes ((chunkRecs ofs l).take i)).length := by
  induction l with
  | nil => intro ofs i hi; simp [chunkRecs] at hi
  | cons p tl ih =>
    intro ofs i hi
    obtain ⟨t, d⟩ := p
    match i with
    | 0 => simp [chunkRecs, mkAction, recsBytes]
    | j + 1 =>
      have hd : d.length < 2 ^ 32 := h (t, d) (List.mem_cons_self _ _)
      have htl : ∀ p ∈ tl, p.2.length < 2 ^ 32 := fun p hp =>
        h p (List.mem_cons_of_mem _ hp)
      have hj : j < (chunkRecs (ofs + d.length % 2 ^ 32 + FIXED_BLOCK_LEN) tl).length := by
        simpa [chunkRecs] using hi
      have := ih htl (ofs + d.length % 2 ^ 32 + FIXED_BLOCK_LEN) j hj
      simp only [chunkRecs, List.get_cons_succ, List.take_succ_cons, recsBytes,
        List.map_cons, List.flatten_cons, List.length_append] at this ⊢
      rw [this]
      have hmod : d.length % 2 ^ 32 = d.length := Nat.mod_eq_of_lt hd
      rw [encodeRecord_length]
      simp [mkAction, hmod]
      omega

theorem chunkRecs_start_succ (l : List (Nat × Bytes)) :
    ∀ (ofs : Nat) (i : Nat) (hi : i < (chunkRecs ofs l).length)
      (hi2 : i + 1 < (chunkRecs ofs l).length),
      ((chunkRecs ofs l).get ⟨i + 1, hi2⟩).startOffset =
        ((chunkRecs ofs l).get ⟨i, hi⟩).startOffset +
          ((chunkRecs ofs l).get ⟨i, hi⟩).dataSize + FIXED_BLOCK_LEN := by
  induction l with
  | nil => intro ofs i hi hi2; simp [chunkRecs] at hi
  | cons p tl ih =>
    intro ofs i hi hi2
    obtain ⟨t, d⟩ := p
    match i with
    | 0 =>
      match tl with
      | [] => simp [chunkRecs] at hi2
      | q :: tl2 =>
        obtain ⟨t2, d2⟩ := q
        simp [chunkRecs, mkAction]
    | j + 1 =>
      have hj : j < (chunkRecs (ofs + d.length % 2 ^ 32 + FIXED_BLOCK_LEN) tl).length := by
        simpa [chunkRecs] using hi
      have hj2 : j + 1 < (chunkRecs (ofs + d.length % 2 ^ 32 + FIXED_BLOCK_LEN) tl).length := by
        simpa [chunkRecs] using hi2
      have := ih (ofs + d.length % 2 ^ 32 + FIXED_BLOCK_LEN) j hj hj2
      simpa [chunkRecs] using this

/-- Claim C8: for every sequence of store events written through a WAL writer
starting at offset 0 (each `store_*_event` is exactly an `appendAction` at
its action byte and payload), as long as the log stays within the range of
the writer's `u32` offset counter (total serialized length below `2^32`,
past which `increment_offset` wraps in release builds and panics in debug
builds), the records tile the output buffer contiguously, each record's
`start_offset` field equals the byte position of the record's first byte in
the buffer and fits the 4-byte field, the next record's `start_offset` is
the previous one's plus `data_size` plus `FIXED_BLOCK_LEN`, and
`FIXED_BLOCK_LEN = 13`. -/
theorem c8_records_tile_buffer (l : List (Nat × Bytes))
    (h : ∀ p ∈ l, p.2.length < 2 ^ 32)
    (hT : (recsBytes (chunkRecs 0 l)).length < 2 ^ 32) :
    (walAppendAll walInit l).writer = recsBytes (chunkRecs 0 l) ∧
    (∀ (i : Nat) (hi : i < (chunkRecs 0 l).length),
      ((chunkRecs 0 l).get ⟨i, hi⟩).startOffset =
        (recsBytes ((chunkRecs 0 l).take i)).length ∧
      ((chunkRecs 0 l).get ⟨i, hi⟩).startOffset < 2 ^ 32) ∧
    (∀ (i : Nat) (hi : i < (chunkRecs 0 l).length)
      (hi2 : i + 1 < (chunkRecs 0 l).length),
      ((chunkRecs 0 l).get ⟨i + 1, hi2⟩).startOffset =
        ((chunkRecs 0 l).get ⟨i, hi⟩).startOffset +
          ((chunkRecs 0 l).get ⟨i, hi⟩).dataSize + FIXED_BLOCK_LEN) ∧
    FIXED_BLOCK_LEN = 13 ∧
    (∀ (st : WalState) (k v : Bytes),
      store_put_event st k v = appendAction st PUT_ACT (kvSerialize k v) ∧
      store_delete_event st k = appendAction st DELETE_ACT k ∧
      store_append_to_set_event st k v =
        appendAction st SET_APPEND_ACT (kvSerialize k v) ∧
      store_remove_from_set_event st k v =
        appendAction st SET_REMOVE_ACT (kvSerialize k v)) := by
  refine ⟨walAppendAll_writer l walInit, ?_, ?_, rfl, ?_⟩
  · intro i hi
    have heq : ((chunkRecs 0 l).get ⟨i, hi⟩).startOffset =
        (recsBytes ((chunkRecs 0 l).take i)).length := by
      simpa using chunkRecs_start_positions l h 0 i hi
    have hprefix : (recsBytes ((chunkRecs 0 l).take i)).length ≤
        (recsBytes (chunkRecs 0 l)).length := by
      conv_rhs => rw [← List.take_append_drop i (chunkRecs 0 l)]
      simp only [recsBytes, List.map_append, List.flatten_append,
        List.length_append]
      exact Nat.le_add_right _ _
    exact ⟨heq, heq ▸ lt_of_le_of_lt hprefix hT⟩
  · intro i hi hi2
    exact chunkRecs_start_succ l 0 i hi hi2
  · intro st k v
    exact ⟨rfl, rfl, rfl, rfl⟩

theorem c8_records_tile_buffer_witness :
    (walAppendAll walInit [(1, kvSerialize [97] [65]), (0, [98])]).writer =
      recsBytes (chunkRecs 0 [(1, kvSerialize [97] [65]), (0, [98])]) ∧
    (∀ (i : Nat)
      (hi : i < (chunkRecs 0 [(1, kvSerialize [97] [65]), (0, [98])]).length),
      ((chunkRecs 0 [(1, kvSerialize [97] [65]), (0, [98])]).get ⟨i, hi⟩).startOffset =
        (recsBytes
          ((chunkRecs 0 [(1, kvSerialize [97] [65]), (0, [98])]).take i)).length ∧
      ((chunkRecs 0 [(1, kvSerialize [97] [65]), (0, [98])]).get
        ⟨i, hi⟩).startOffset < 2 ^ 32) ∧
    (∀ (i : Nat)
      (hi : i < (chunkRecs 0 [(1, kvSerialize [97] [65]), (0, [98])]).length)
      (hi2 : i + 1 < (chunkRecs 0 [(1, kvSerialize [97] [65]), (0, [98])]).length),
      ((chunkRecs 0 [(1, kvSerialize [97] [65]), (0, [98])]).get ⟨i + 1, hi2⟩).startOffset =
        ((chunkRecs 0 [(1, kvSerialize [97] [65]), (0, [98])]).get ⟨i, hi⟩).startOffset +
          ((chunkRecs 0 [(1, kvSerialize [97] [65]), (0, [98])]).get ⟨i, hi⟩).dataSize +
          FIXED_BLOCK_LEN) ∧
    FIXED_BLOCK_LEN = 13 ∧
    (∀ (st : WalState) (k v : Bytes),
      store_put_event st k v = appendAction st PUT_ACT (kvSerialize k v) ∧
      store_delete_event st k = appendAction st DELETE_ACT k ∧
      store_append_to_set_event st k v =
        appendAction st SET_APPEND_ACT (kvSerialize k v) ∧
      store_remove_from_set_event st k v =
        appendAction st SET_REMOVE_ACT (kvSerialize k v)) :=
  c8_records_tile_buffer [(1, kvSerialize [97] [65]), (0, [98])] (by decide)
    (by decide)

/-! ### Byte-level helper lemmas for replay proofs -/

/-- Entries of a genuine byte string are below 256 (`u8`). -/
def bytesOk (l : Bytes) : Prop := ∀ b ∈ l, b < 256

instance (l : Bytes) : Decidable (bytesOk l) := by
  unfold bytesOk; infer_instance

theorem leDec_u32le (n : Nat) : leDec (u32le n) = n % 2 ^ 32 := by
  simp only [leDec, u32le, List.foldr]
  have h2 : (256 : Nat) ^ 2 = 65536 := by norm_num
  have h3 : (256 : Nat) ^ 3 = 16777216 := by norm_num
  rw [h2, h3]
  have h32 : (2 : Nat) ^ 32 = 4294967296 := by norm_num
  rw [h32]
  omega

theorem leDec_u64le (n : Nat) : leDec (u64le n) = n % 2 ^ 64 := by
  simp only [leDec, u64le, List.foldr]
  have h2 : (256 : Nat) ^ 2 = 65536 := by norm_num
  have h3 : (256 : Nat) ^ 3 = 16777216 := by norm_num
  have h4 : (256 : Nat) ^ 4 = 4294967296 := by norm_num
  have h5 : (256 : Nat) ^ 5 = 1099511627776 := by norm_num
  have h6 : (256 : Nat) ^ 6 = 281474976710656 := by norm_num
  have h7 : (256 : Nat) ^ 7 = 72057594037927936 := by norm_num
  rw [h2, h3, h4, h5, h6, h7]
  have h64 : (2 : Nat) ^ 64 = 18446744073709551616 := by norm_num
  rw [h64]
  omega

theorem u32le_length (n : Nat) : (u32le n).length = 4 := rfl

theorem u64le_length (n : Nat) : (u64le n).length = 8 := rfl

theorem u32le_bytesOk (n : Nat) : bytesOk (u32le n) := by
  intro b hb
  simp [u32le] at hb
  rcases hb with h | h | h | h <;> omega

theorem u64le_bytesOk (n : Nat) : bytesOk (u64le n) := by
  intro b hb
  simp [u64le] at hb
  rcases hb with h | h | h | h | h | h | h | h <;> omega

theorem bytesOk_append {l1 l2 : Bytes} (h1 : bytesOk l1) (h2 : bytesOk l2) :
    bytesOk (l1 ++ l2) := by
  intro b hb
  rcases List.mem_append.mp hb with h | h
  · exact h1 b h
  · exact h2 b h

theorem kvSerialize_bytesOk {k v : Bytes} (hk : bytesOk k) (hv : bytesOk v) :
    bytesOk (kvSerialize k v) :=
  bytesOk_append (bytesOk_append (bytesOk_append (u64le_bytesOk _) hk)
    (u64le_bytesOk _)) hv

theorem kvSerialize_length (k v : Bytes) :
    (kvSerialize k v).length = 16 + k.length + v.length := by
  simp [kvSerialize, u64le]
  omega

theorem kvDeserialize_roundtrip (k v : Bytes) (hk : k.length < 2 ^ 64)
    (hv : v.length < 2 ^ 64) :
    kvDeserialize (kvSerialize k v) = some (k, v) := by
  unfold kvDeserialize kvSerialize
  have hk8 : (u64le k.length).length = 8 := u64le_length _
  have hv8 : (u64le v.length).length = 8 := u64le_length _
  have htake8 : ((u64le k.length ++ (k ++ (u64le v.length ++ v)))).take 8 =
      u64le k.length := by
    rw [← hk8]
    exact List.take_left _ _
  have hdrop8 : ((u64le k.length ++ (k ++ (u64le v.length ++ v)))).drop 8 =
      k ++ (u64le v.length ++ v) := by
    rw [← hk8]
    exact List.drop_left _ _
  have hlen : (u64le k.length ++ (k ++ (u64le v.length ++ v))).length =
      16 + k.length + v.length := by
    simp [u64le]; omega
  rw [List.append_assoc, List.append_assoc]
  rw [if_pos (by rw [hlen]; omega)]
  simp only [htake8, hdrop8, leDec_u64le, Nat.mod_eq_of_lt hk]
  have htakek : (k ++ (u64le v.length ++ v)).take k.length = k :=
    List.take_left _ _
  have hdropk : (k ++ (u64le v.length ++ v)).drop k.length =
      u64le v.length ++ v := List.drop_left _ _
  rw [if_pos (by simp [u64le])]
  simp only [htakek, hdropk]
  rw [if_pos (by simp [u64le])]
  have htakev : (u64le v.length ++ v).take 8 = u64le v.length := by
    rw [← hv8]; exact List.take_left _ _
  have hdropv : (u64le v.length ++ v).drop 8 = v := by
    rw [← hv8]; exact List.drop_left _ _
  simp only [htakev, hdropv, leDec_u64le, Nat.mod_eq_of_lt hv]
  rw [if_pos (by omega)]
  simp

theorem crcStep_lt {c : Nat} (h : c < 2 ^ 32) : crcStep c < 2 ^ 32 := by
  unfold crcStep
  by_cases hp : c % 2 = 1
  · rw [if_pos hp]
    have h1 : c / 2 < 2 ^ 32 := by omega
    have h2 : (0xEDB88320 : Nat) < 2 ^ 32 := by norm_num
    exact Nat.xor_lt_two_pow h1 h2
  · rw [if_neg hp]; omega

theorem crcRounds_lt (n : Nat) : ∀ {c : Nat}, c < 2 ^ 32 → crcRounds n c < 2 ^ 32 := by
  induction n with
  | zero => intro c h; simpa [crcRounds] using h
  | succ n ih => intro c h; exact ih (crcStep_lt h)

theorem crc32_lt {data : Bytes} (h : bytesOk data) : crc32 data < 2 ^ 32 := by
  unfold crc32
  have hfold : ∀ (l : Bytes), bytesOk l → ∀ (c : Nat), c < 2 ^ 32 →
      l.foldl (fun c b => crcRounds 8 (c ^^^ b)) c < 2 ^ 32 := by
    intro l
    induction l with
    | nil => intro _ c hc; simpa using hc
    | cons b t ih =>
      intro hl c hc
      have hb : b < 256 := hl b (List.mem_cons_self _ _)
      have ht : bytesOk t := fun x hx => hl x (List.mem_cons_of_mem _ hx)
      have hx : c ^^^ b < 2 ^ 32 :=
        Nat.xor_lt_two_pow hc (by omega)
      exact ih ht _ (crcRounds_lt 8 hx)
  have hres := hfold data h 0xFFFFFFFF (by norm_num)
  exact Nat.xor_lt_two_pow hres (by norm_num)

theorem parseRecord_encode (a : StoredAction) (rest : Bytes)
    (h1 : a.dataSize = a.data.length) (h2 : a.data.length < 2 ^ 32)
    (h3 : a.crc < 2 ^ 32) :
    parseRecord (encodeRecord a ++ rest) =
      some ({ a with startOffset := a.startOffset % 2 ^ 32 }, rest) := by
  have hshape : encodeRecord a ++ rest =
      a.actType :: (u32le a.crc ++ (u32le a.dataSize ++
        (a.data ++ (u32le a.startOffset ++ rest)))) := by
    simp [encodeRecord]
  have hlen : (encodeRecord a ++ rest).length =
      13 + a.data.length + rest.length := by
    simp [encodeRecord_length, FIXED_BLOCK_LEN]
  have hdrop1 : (encodeRecord a ++ rest).drop 1 =
      u32le a.crc ++ (u32le a.dataSize ++ (a.data ++ (u32le a.startOffset ++ rest))) := by
    rw [hshape]; rfl
  have hdrop5 : (encodeRecord a ++ rest).drop 5 =
      u32le a.dataSize ++ (a.data ++ (u32le a.startOffset ++ rest)) := by
    have : (5 : Nat) = 1 + 4 := rfl
    rw [this, ← List.drop_drop, hdrop1, List.drop_left' (u32le_length _)]
  have hdrop9 : (encodeRecord a ++ rest).drop 9 =
      a.data ++ (u32le a.startOffset ++ rest) := by
    have : (9 : Nat) = 5 + 4 := rfl
    rw [this, ← List.drop_drop, hdrop5, List.drop_left' (u32le_length _)]
  have hds : leDec (((encodeRecord a ++ rest).drop 5).take 4) = a.data.length := by
    rw [hdrop5, List.take_left' (u32le_length _), leDec_u32le, h1,
      Nat.mod_eq_of_lt h2]
  have hcrc : leDec (((encodeRecord a ++ rest).drop 1).take 4) = a.crc := by
    rw [hdrop1, List.take_left' (u32le_length _), leDec_u32le,
      Nat.mod_eq_of_lt h3]
  have hdata : ((encodeRecord a ++ rest).drop 9).take a.data.length = a.data := by
    rw [hdrop9]; exact List.take_left _ _
  have hdropData : (encodeRecord a ++ rest).drop (9 + a.data.length) =
      u32le a.startOffset ++ rest := by
    rw [← List.drop_drop, hdrop9, List.drop_left]
  have hso : leDec (((encodeRecord a ++ rest).drop (9 + a.data.length)).take 4) =
      a.startOffset % 2 ^ 32 := by
    rw [hdropData, List.take_left' (u32le_length _), leDec_u32le]
  have hrest : (encodeRecord a ++ rest).drop (13 + a.data.length) = rest := by
    have : (13 : Nat) + a.data.length = (9 + a.data.length) + 4 := by omega
    rw [this, ← List.drop_drop, hdropData, List.drop_left' (u32le_length _)]
  have hhead : (encodeRecord a ++ rest).head? = some a.actType := by
    rw [hshape]; rfl
  unfold parseRecord
  rw [hhead]
  simp only [hds, hcrc, hdata, hso, hrest]
  rw [if_pos (by rw [hlen]; omega), h1]

/-! ### Forward replay of writer-produced logs (KV) -/

/-- Well-formedness of one `(action byte, payload)` event for KV replay:
genuine byte payload, `u32`-sized, and either a DELETE or a PUT whose payload
deserializes. -/
def KvRecWf (p : Nat × Bytes) : Prop :=
  bytesOk p.2 ∧ p.2.length < 2 ^ 32 ∧
    (p.1 = DELETE_ACT ∨ (p.1 = PUT_ACT ∧ (kvDeserialize p.2).isSome))

/-- Reference replay of an event list with KV semantics (the effect
`read_forward` has record by record); action byte 0 is DELETE, 1 is PUT. -/
def kvReplayL : KvMap → List (Nat × Bytes) → Option KvMap
  | m, [] => some m
  | m, (0, d) :: tl => kvReplayL (amErase m d) tl
  | m, (1, d) :: tl =>
    match kvDeserialize d with
    | some kv => kvReplayL (amInsert m kv.1 kv.2) tl
    | none => none
  | _, (_ + 2, _) :: _ => none

theorem recsBytes_cons (a : StoredAction) (recs : List StoredAction) :
    recsBytes (a :: recs) = encodeRecord a ++ recsBytes recs := by
  simp [recsBytes]

theorem readFwdGo_step (f : Nat) (m m' : KvMap) (bytes rest : Bytes)
    (a : StoredAction) (hne : bytes ≠ []) (hp : parseRecord bytes = some (a, rest))
    (ha : applyKvRecord m a = some m') :
    readFwdGo (f + 1) m bytes = readFwdGo f m' rest := by
  rw [readFwdGo, if_neg hne, hp]
  show (match applyKvRecord m a with
        | none => none
        | some m2 => readFwdGo f m2 rest) = readFwdGo f m' rest
  rw [ha]

theorem readFwdGo_chunk (l : List (Nat × Bytes)) :
    ∀ (ofs : Nat) (m : KvMap) (fuel : Nat),
      (∀ p ∈ l, KvRecWf p) →
      (recsBytes (chunkRecs ofs l)).length < fuel →
      readFwdGo fuel m (recsBytes (chunkRecs ofs l)) = kvReplayL m l := by
  induction l with
  | nil =>
    intro ofs m fuel _ hfuel
    match fuel with
    | f + 1 => simp [chunkRecs, recsBytes, readFwdGo, kvReplayL]
  | cons p tl ih =>
    intro ofs m fuel hwf hfuel
    obtain ⟨t, d⟩ := p
    have hw : KvRecWf (t, d) := hwf _ (List.mem_cons_self _ _)
    obtain ⟨hbytes, hsize, hact⟩ := hw
    simp only at hbytes hsize hact
    have hwtl : ∀ p ∈ tl, KvRecWf p := fun p hp => hwf p (List.mem_cons_of_mem _ hp)
    have hbytesEq : recsBytes (chunkRecs ofs ((t, d) :: tl)) =
        encodeRecord (mkAction t d ofs) ++
          recsBytes (chunkRecs (ofs + d.length % 2 ^ 32 + FIXED_BLOCK_LEN) tl) := by
      simp [chunkRecs, recsBytes]
    have hds : (mkAction t d ofs).dataSize = (mkAction t d ofs).data.length := by
      simp only [mkAction]
      exact Nat.mod_eq_of_lt hsize
    have hdlt : (mkAction t d ofs).data.length < 2 ^ 32 := by
      simpa [mkAction] using hsize
    have hclt : (mkAction t d ofs).crc < 2 ^ 32 := by
      simpa [mkAction] using crc32_lt hbytes
    have hparse := parseRecord_encode (mkAction t d ofs)
      (recsBytes (chunkRecs (ofs + d.length % 2 ^ 32 + FIXED_BLOCK_LEN) tl))
      hds hdlt hclt
    have hlenpos : 0 < (recsBytes (chunkRecs ofs ((t, d) :: tl))).length := by
      rw [hbytesEq]
      simp [encodeRecord_length, FIXED_BLOCK_LEN]
    match fuel with
    | f + 1 =>
      have hne : recsBytes (chunkRecs ofs ((t, d) :: tl)) ≠ [] := by
        intro he
        rw [he] at hlenpos
        simp at hlenpos
      have hparse2 : parseRecord (recsBytes (chunkRecs ofs ((t, d) :: tl))) =
          some ({ mkAction t d ofs with
              startOffset := (mkAction t d ofs).startOffset % 2 ^ 32 },
            recsBytes (chunkRecs (ofs + d.length % 2 ^ 32 + FIXED_BLOCK_LEN) tl)) := by
        rw [hbytesEq]; exact hparse
      have hfuel2 : (recsBytes (chunkRecs (ofs + d.length % 2 ^ 32 + FIXED_BLOCK_LEN) tl)).length < f := by
        have h := hfuel
        rw [hbytesEq, List.length_append, encodeRecord_length] at h
        have hd13 : (mkAction t d ofs).data.length = d.length := by
          simp [mkAction]
        rw [hd13] at h
        have hfb : FIXED_BLOCK_LEN = 13 := rfl
        omega
      rcases hact with hdel | ⟨hput, hdes⟩
      · subst hdel
        have happly : applyKvRecord m
            { mkAction DELETE_ACT d ofs with
              startOffset := (mkAction DELETE_ACT d ofs).startOffset % 2 ^ 32 } =
            some (amErase m d) := by
          simp [applyKvRecord, mkAction]
        rw [readFwdGo_step f m (amErase m d) _ _ _ hne hparse2 happly]
        exact (ih _ _ _ hwtl hfuel2).trans (by simp [kvReplayL, DELETE_ACT])
      · subst hput
        obtain ⟨kv, hkv⟩ := Option.isSome_iff_exists.mp hdes
        have happly : applyKvRecord m
            { mkAction PUT_ACT d ofs with
              startOffset := (mkAction PUT_ACT d ofs).startOffset % 2 ^ 32 } =
            some (amInsert m kv.1 kv.2) := by
          simp [applyKvRecord, mkAction, DELETE_ACT, PUT_ACT, hkv]
        rw [readFwdGo_step f m (amInsert m kv.1 kv.2) _ _ _ hne hparse2 happly]
        exact (ih _ _ _ hwtl hfuel2).trans
          (by simp [kvReplayL, PUT_ACT, DELETE_ACT, hkv])

/-! ### Claim C1, KV half: engine runs refine replayable event lists -/

/-- Size and byte-range side conditions under which a KV operation's WAL
records stay within the `u32` framing of the record format (the spec fixes
`data_size` at 4 bytes, §4.1). -/
def kvOpWf : KvOp → Prop
  | .put k v => bytesOk k ∧ bytesOk v ∧ 16 + k.length + v.length < 2 ^ 32
  | .compute k f =>
    bytesOk k ∧ ∀ o, bytesOk (f o) ∧ 16 + k.length + (f o).length < 2 ^ 32
  | .increment_or_init k _ => bytesOk k ∧ 24 + k.length < 2 ^ 32
  | .decrement k _ => bytesOk k ∧ 24 + k.length < 2 ^ 32
  | .set_number k _ => bytesOk k ∧ 24 + k.length < 2 ^ 32
  | .remove k => bytesOk k ∧ k.length < 2 ^ 32

theorem kvReplayL_append (l1 : List (Nat × Bytes)) :
    ∀ (l2 : List (Nat × Bytes)) (m m' : KvMap), kvReplayL m l1 = some m' →
      kvReplayL m (l1 ++ l2) = kvReplayL m' l2 := by
  induction l1 with
  | nil =>
    intro l2 m m' h
    simp [kvReplayL] at h
    subst h
    rfl
  | cons p tl ih =>
    intro l2 m m' h
    obtain ⟨t, d⟩ := p
    match t with
    | 0 =>
      simp only [kvReplayL, List.cons_append] at h ⊢
      exact ih l2 _ _ h
    | 1 =>
      simp only [kvReplayL, List.cons_append] at h ⊢
      cases hkv : kvDeserialize d with
      | none =>
        rw [hkv] at h
        exact Option.noConfusion h
      | some kv =>
        rw [hkv] at h
        exact ih l2 _ _ h
    | t + 2 =>
      simp [kvReplayL] at h

/-- The KV-record event a PUT-effect operation appends is well-formed and
replays to the insertion it performed. -/
theorem kvPutEventWf {k v : Bytes} (hk : bytesOk k) (hv : bytesOk v)
    (hsz : 16 + k.length + v.length < 2 ^ 32) :
    KvRecWf (PUT_ACT, kvSerialize k v) ∧
      kvDeserialize (kvSerialize k v) = some (k, v) := by
  have h64 : k.length < 2 ^ 64 ∧ v.length < 2 ^ 64 := by
    have : (2 : Nat) ^ 32 < 2 ^ 64 := by norm_num
    omega
  have hrt := kvDeserialize_roundtrip k v h64.1 h64.2
  refine ⟨⟨kvSerialize_bytesOk hk hv, ?_, Or.inr ⟨rfl, by rw [hrt]; rfl⟩⟩, hrt⟩
  rw [kvSerialize_length]
  exact hsz

/-- Main induction for the KV engine: every run is a WAL-event list whose
replay is the in-memory store. -/
theorem runKv_refines (ops : List KvOp) (h : ∀ op ∈ ops, kvOpWf op) :
    ∃ l, (runKv ops).wal = walAppendAll walInit l ∧ (∀ p ∈ l, KvRecWf p) ∧
      kvReplayL [] l = some (runKv ops).store := by
  induction ops using List.reverseRecOn with
  | nil =>
    exact ⟨[], rfl, by simp, by simp [kvReplayL, runKv, KV.init]⟩
  | append_singleton ops op ih =>
    have hops : ∀ o ∈ ops, kvOpWf o := fun o ho =>
      h o (List.mem_append.mpr (Or.inl ho))
    have hop : kvOpWf op := h op (List.mem_append.mpr (Or.inr (List.mem_singleton.mpr rfl)))
    obtain ⟨l, hwal, hwf, hrep⟩ := ih hops
    have hrun : runKv (ops ++ [op]) = kvStep (runKv ops) op := by
      simp [runKv, List.foldl_append]
    -- helper facts for extending the event list by one PUT or DELETE record
    have hext : ∀ (k v : Bytes), bytesOk k → bytesOk v →
        16 + k.length + v.length < 2 ^ 32 →
        store_put_event (runKv ops).wal k v =
          walAppendAll walInit (l ++ [(PUT_ACT, kvSerialize k v)]) ∧
        (∀ p ∈ l ++ [(PUT_ACT, kvSerialize k v)], KvRecWf p) ∧
        kvReplayL [] (l ++ [(PUT_ACT, kvSerialize k v)]) =
          some (amInsert (runKv ops).store k v) := by
      intro k v hk hv hsz
      obtain ⟨hwfp, hrt⟩ := kvPutEventWf hk hv hsz
      refine ⟨?_, ?_, ?_⟩
      · rw [hwal]
        simp [walAppendAll, store_put_event]
      · intro p hp
        rcases List.mem_append.mp hp with hp | hp
        · exact hwf p hp
        · rw [List.mem_singleton.mp hp]; exact hwfp
      · rw [kvReplayL_append l _ _ _ hrep]
        simp [kvReplayL, PUT_ACT, DELETE_ACT, hrt]
    have hextDel : ∀ (k : Bytes), bytesOk k → k.length < 2 ^ 32 →
        store_delete_event (runKv ops).wal k =
          walAppendAll walInit (l ++ [(DELETE_ACT, k)]) ∧
        (∀ p ∈ l ++ [(DELETE_ACT, k)], KvRecWf p) ∧
        kvReplayL [] (l ++ [(DELETE_ACT, k)]) =
          some (amErase (runKv ops).store k) := by
      intro k hk hsz
      refine ⟨?_, ?_, ?_⟩
      · rw [hwal]
        simp [walAppendAll, store_delete_event]
      · intro p hp
        rcases List.mem_append.mp hp with hp | hp
        · exact hwf p hp
        · rw [List.mem_singleton.mp hp]
          exact ⟨hk, hsz, Or.inl rfl⟩
      · rw [kvReplayL_append l _ _ _ hrep]
        simp [kvReplayL]
    rw [hrun]
    cases op with
    | put k v =>
      obtain ⟨hk, hv, hsz⟩ := hop
      obtain ⟨h1, h2, h3⟩ := hext k v hk hv hsz
      exact ⟨l ++ [(PUT_ACT, kvSerialize k v)], h1, h2, h3⟩
    | compute k f =>
      obtain ⟨hk, hf⟩ := hop
      obtain ⟨hfv, hsz⟩ := hf (amFind (runKv ops).store k)
      obtain ⟨h1, h2, h3⟩ := hext k _ hk hfv hsz
      exact ⟨l ++ [(PUT_ACT, kvSerialize k (f (amFind (runKv ops).store k)))],
        h1, h2, h3⟩
    | increment_or_init k n =>
      obtain ⟨hk, hsz⟩ := hop
      cases hfind : amFind (runKv ops).store k with
      | some bytes =>
        by_cases hlen : bytes.length = 8
        · have hstep : kvStep (runKv ops) (KvOp.increment_or_init k n) =
              { wal := store_put_event (runKv ops).wal k (u64le (leDec bytes + n)),
                store := amInsert (runKv ops).store k (u64le (leDec bytes + n)) } := by
            simp [kvStep, KV.increment_or_init, hfind, hlen]
          rw [hstep]
          obtain ⟨h1, h2, h3⟩ := hext k (u64le (leDec bytes + n)) hk
            (u64le_bytesOk _) (by rw [u64le_length]; omega)
          exact ⟨l ++ [(PUT_ACT, kvSerialize k (u64le (leDec bytes + n)))],
            h1, h2, h3⟩
        · have hstep : kvStep (runKv ops) (KvOp.increment_or_init k n) =
              runKv ops := by
            simp [kvStep, KV.increment_or_init, hfind, hlen]
          rw [hstep]
          exact ⟨l, hwal, hwf, hrep⟩
      | none =>
        have hstep : kvStep (runKv ops) (KvOp.increment_or_init k n) =
            { wal := store_put_event (runKv ops).wal k (u64le n),
              store := amInsert (runKv ops).store k (u64le n) } := by
          simp [kvStep, KV.increment_or_init, hfind]
        rw [hstep]
        obtain ⟨h1, h2, h3⟩ := hext k (u64le n) hk (u64le_bytesOk _)
          (by rw [u64le_length]; omega)
        exact ⟨l ++ [(PUT_ACT, kvSerialize k (u64le n))], h1, h2, h3⟩
    | decrement k n =>
      obtain ⟨hk, hsz⟩ := hop
      cases hfind : amFind (runKv ops).store k with
      | some bytes =>
        by_cases hlen : bytes.length = 8
        · have hstep : kvStep (runKv ops) (KvOp.decrement k n) =
              { wal := store_put_event (runKv ops).wal k
                  (u64le (if n ≥ leDec bytes then 0 else leDec bytes - n)),
                store := amInsert (runKv ops).store k
                  (u64le (if n ≥ leDec bytes then 0 else leDec bytes - n)) } := by
            simp [kvStep, KV.decrement, hfind, hlen]
          rw [hstep]
          obtain ⟨h1, h2, h3⟩ := hext k
            (u64le (if n ≥ leDec bytes then 0 else leDec bytes - n)) hk
            (u64le_bytesOk _) (by rw [u64le_length]; omega)
          exact ⟨l ++ [(PUT_ACT, kvSerialize k
            (u64le (if n ≥ leDec bytes then 0 else leDec bytes - n)))],
            h1, h2, h3⟩
        · have hstep : kvStep (runKv ops) (KvOp.decrement k n) = runKv ops := by
            simp [kvStep, KV.decrement, hfind, hlen]
          rw [hstep]
          exact ⟨l, hwal, hwf, hrep⟩
      | none =>
        have hstep : kvStep (runKv ops) (KvOp.decrement k n) = runKv ops := by
          simp [kvStep, KV.decrement, hfind]
        rw [hstep]
        exact ⟨l, hwal, hwf, hrep⟩
    | set_number k n =>
      obtain ⟨hk, hsz⟩ := hop
      obtain ⟨h1, h2, h3⟩ := hext k (u64le n) hk (u64le_bytesOk _)
        (by rw [u64le_length]; omega)
      exact ⟨l ++ [(PUT_ACT, kvSerialize k (u64le n))], h1, h2, h3⟩
    | remove k =>
      obtain ⟨hk, hsz⟩ := hop
      obtain ⟨h1, h2, h3⟩ := hextDel k hk hsz
      exact ⟨l ++ [(DELETE_ACT, k)], h1, h2, h3⟩

/-! ### Claim C1, set half: replay of set-engine logs -/

/-- Well-formedness of one `(action byte, payload)` event for set replay. -/
def SetRecWf (p : Nat × Bytes) : Prop :=
  bytesOk p.2 ∧ p.2.length < 2 ^ 32 ∧
    (p.1 = DELETE_ACT ∨
      ((p.1 = SET_APPEND_ACT ∨ p.1 = SET_REMOVE_ACT) ∧ (kvDeserialize p.2).isSome))

/-- Reference replay of an event list with set semantics (the effect
`read_for_set` has record by record); byte 0 is DELETE, 2 is SET_APPEND, 3 is
SET_REMOVE. -/
def setReplayL : SetMap → List (Nat × Bytes) → Option SetMap
  | m, [] => some m
  | m, (0, d) :: tl => setReplayL (amErase m d) tl
  | m, (2, d) :: tl =>
    match kvDeserialize d with
    | some kv =>
      setReplayL
        (match amFind m kv.1 with
         | none => amInsert m kv.1 (hsInsert [] kv.2)
         | some hs => amInsert m kv.1 (hsInsert hs kv.2)) tl
    | none => none
  | m, (3, d) :: tl =>
    match kvDeserialize d with
    | some kv =>
      setReplayL
        (match amFind m kv.1 with
         | none => m
         | some hs => amInsert m kv.1 (hsRemove hs kv.2)) tl
    | none => none
  | _, (1, _) :: _ => none
  | _, (_ + 4, _) :: _ => none

theorem setReplayL_append (l1 : List (Nat × Bytes)) :
    ∀ (l2 : List (Nat × Bytes)) (m m' : SetMap), setReplayL m l1 = some m' →
      setReplayL m (l1 ++ l2) = setReplayL m' l2 := by
  induction l1 with
  | nil =>
    intro l2 m m' h
    simp [setReplayL] at h
    subst h
    rfl
  | cons p tl ih =>
    intro l2 m m' h
    obtain ⟨t, d⟩ := p
    match t with
    | 0 =>
      simp only [setReplayL, List.cons_append] at h ⊢
      exact ih l2 _ _ h
    | 1 => simp [setReplayL] at h
    | 2 =>
      simp only [setReplayL, List.cons_append] at h ⊢
      cases hkv : kvDeserialize d with
      | none =>
        rw [hkv] at h
        exact Option.noConfusion h
      | some kv =>
        rw [hkv] at h
        exact ih l2 _ _ h
    | 3 =>
      simp only [setReplayL, List.cons_append] at h ⊢
      cases hkv : kvDeserialize d with
      | none =>
        rw [hkv] at h
        exact Option.noConfusion h
      | some kv =>
        rw [hkv] at h
        exact ih l2 _ _ h
    | t + 4 => simp [setReplayL] at h

theorem readSetGo_step (f : Nat) (m m' : SetMap) (bytes rest : Bytes)
    (a : StoredAction) (hne : bytes ≠ []) (hp : parseRecord bytes = some (a, rest))
    (ha : applySetRecord m a = some m') :
    readSetGo (f + 1) m bytes = readSetGo f m' rest := by
  rw [readSetGo, if_neg hne, hp]
  show (match applySetRecord m a with
        | none => none
        | some m2 => readSetGo f m2 rest) = readSetGo f m' rest
  rw [ha]

theorem readSetGo_chunk (l : List (Nat × Bytes)) :
    ∀ (ofs : Nat) (m : SetMap) (fuel : Nat),
      (∀ p ∈ l, SetRecWf p) →
      (recsBytes (chunkRecs ofs l)).length < fuel →
      readSetGo fuel m (recsBytes (chunkRecs ofs l)) = setReplayL m l := by
  induction l with
  | nil =>
    intro ofs m fuel _ hfuel
    match fuel with
    | f + 1 => simp [chunkRecs, recsBytes, readSetGo, setReplayL]
  | cons p tl ih =>
    intro ofs m fuel hwf hfuel
    obtain ⟨t, d⟩ := p
    have hw : SetRecWf (t, d) := hwf _ (List.mem_cons_self _ _)
    obtain ⟨hbytes, hsize, hact⟩ := hw
    simp only at hbytes hsize hact
    have hwtl : ∀ p ∈ tl, SetRecWf p := fun p hp => hwf p (List.mem_cons_of_mem _ hp)
    have hbytesEq : recsBytes (chunkRecs ofs ((t, d) :: tl)) =
        encodeRecord (mkAction t d ofs) ++
          recsBytes (chunkRecs (ofs + d.length % 2 ^ 32 + FIXED_BLOCK_LEN) tl) := by
      simp [chunkRecs, recsBytes]
    have hds : (mkAction t d ofs).dataSize = (mkAction t d ofs).data.length := by
      simp only [mkAction]
      exact Nat.mod_eq_of_lt hsize
    have hdlt : (mkAction t d ofs).data.length < 2 ^ 32 := by
      simpa [mkAction] using hsize
    have hclt : (mkAction t d ofs).crc < 2 ^ 32 := by
      simpa [mkAction] using crc32_lt hbytes
    have hparse := parseRecord_encode (mkAction t d ofs)
      (recsBytes (chunkRecs (ofs + d.length % 2 ^ 32 + FIXED_BLOCK_LEN) tl))
      hds hdlt hclt
    have hlenpos : 0 < (recsBytes (chunkRecs ofs ((t, d) :: tl))).length := by
      rw [hbytesEq]
      simp [encodeRecord_length, FIXED_BLOCK_LEN]
    match fuel with
    | f + 1 =>
      have hne : recsBytes (chunkRecs ofs ((t, d) :: tl)) ≠ [] := by
        intro he
        rw [he] at hlenpos
        simp at hlenpos
      have hparse2 : parseRecord (recsBytes (chunkRecs ofs ((t, d) :: tl))) =
          some ({ mkAction t d ofs with
              startOffset := (mkAction t d ofs).startOffset % 2 ^ 32 },
            recsBytes (chunkRecs (ofs + d.length % 2 ^ 32 + FIXED_BLOCK_LEN) tl)) := by
        rw [hbytesEq]; exact hparse
      have hfuel2 : (recsBytes (chunkRecs (ofs + d.length % 2 ^ 32 + FIXED_BLOCK_LEN) tl)).length < f := by
        have h := hfuel
        rw [hbytesEq, List.length_append, encodeRecord_length] at h
        have hd13 : (mkAction t d ofs).data.length = d.length := by
          simp [mkAction]
        rw [hd13] at h
        have hfb : FIXED_BLOCK_LEN = 13 := rfl
        omega
      rcases hact with hdel | ⟨hkind, hdes⟩
      · subst hdel
        have happly : applySetRecord m
            { mkAction DELETE_ACT d ofs with
              startOffset := (mkAction DELETE_ACT d ofs).startOffset % 2 ^ 32 } =
            some (amErase m d) := by
          simp [applySetRecord, mkAction]
        rw [readSetGo_step f m (amErase m d) _ _ _ hne hparse2 happly]
        exact (ih _ _ _ hwtl hfuel2).trans (by simp [setReplayL, DELETE_ACT])
      · obtain ⟨kv, hkv⟩ := Option.isSome_iff_exists.mp hdes
        rcases hkind with happ | hrem
        · subst happ
          have happly : applySetRecord m
              { mkAction SET_APPEND_ACT d ofs with
                startOffset := (mkAction SET_APPEND_ACT d ofs).startOffset % 2 ^ 32 } =
              some (match amFind m kv.1 with
                | none => amInsert m kv.1 (hsInsert [] kv.2)
                | some hs => amInsert m kv.1 (hsInsert hs kv.2)) := by
            cases hfind : amFind m kv.1 with
            | none =>
              simp [applySetRecord, mkAction, DELETE_ACT, SET_APPEND_ACT, hkv, hfind]
            | some hs =>
              simp [applySetRecord, mkAction, DELETE_ACT, SET_APPEND_ACT, hkv, hfind]
          rw [readSetGo_step f m _ _ _ _ hne hparse2 happly]
          exact (ih _ _ _ hwtl hfuel2).trans
            (by simp [setReplayL, SET_APPEND_ACT, hkv])
        · subst hrem
          have happly : applySetRecord m
              { mkAction SET_REMOVE_ACT d ofs with
                startOffset := (mkAction SET_REMOVE_ACT d ofs).startOffset % 2 ^ 32 } =
              some (match amFind m kv.1 with
                | none => m
                | some hs => amInsert m kv.1 (hsRemove hs kv.2)) := by
            cases hfind : amFind m kv.1 with
            | none =>
              simp [applySetRecord, mkAction, DELETE_ACT, SET_APPEND_ACT,
                SET_REMOVE_ACT, hkv, hfind]
            | some hs =>
              simp [applySetRecord, mkAction, DELETE_ACT, SET_APPEND_ACT,
                SET_REMOVE_ACT, hkv, hfind]
          rw [readSetGo_step f m _ _ _ _ hne hparse2 happly]
          exact (ih _ _ _ hwtl hfuel2).trans
            (by simp [setReplayL, SET_REMOVE_ACT, hkv])

/-- Size and byte-range side conditions for set-engine operations. -/
def setOpWf : SetOp → Prop
  | .append k v => bytesOk k ∧ bytesOk v ∧ 16 + k.length + v.length < 2 ^ 32
  | .remove_from_set k v => bytesOk k ∧ bytesOk v ∧ 16 + k.length + v.length < 2 ^ 32
  | .remove_from_set_callback k v =>
    bytesOk k ∧ bytesOk v ∧ 16 + k.length + v.length < 2 ^ 32
  | .remove_key k => bytesOk k ∧ k.length < 2 ^ 32

/-- Generic one-step extension of a refined set-engine run. -/
theorem setRefineExtend (st st' : DurableKeySetStore) (l l2 : List (Nat × Bytes))
    (hwal : st.wal = walAppendAll walInit l) (hwf : ∀ p ∈ l, SetRecWf p)
    (hrep : setReplayL [] l = some st.store)
    (hwf2 : ∀ p ∈ l2, SetRecWf p)
    (hwal2 : st'.wal = walAppendAll st.wal l2)
    (hrep2 : setReplayL st.store l2 = some st'.store) :
    ∃ l', st'.wal = walAppendAll walInit l' ∧ (∀ p ∈ l', SetRecWf p) ∧
      setReplayL [] l' = some st'.store := by
  refine ⟨l ++ l2, ?_, ?_, ?_⟩
  · rw [hwal2, hwal]
    simp [walAppendAll, List.foldl_append]
  · intro p hp
    rcases List.mem_append.mp hp with hp | hp
    · exact hwf p hp
    · exact hwf2 p hp
  · rw [setReplayL_append l l2 _ _ hrep]
    exact hrep2

/-- The SET_APPEND / SET_REMOVE record events are well-formed under the size
conditions. -/
theorem setKvEventWf {k v : Bytes} (t : Nat) (hk : bytesOk k) (hv : bytesOk v)
    (hsz : 16 + k.length + v.length < 2 ^ 32)
    (ht : t = SET_APPEND_ACT ∨ t = SET_REMOVE_ACT) :
    SetRecWf (t, kvSerialize k v) ∧
      kvDeserialize (kvSerialize k v) = some (k, v) := by
  have h64 : k.length < 2 ^ 64 ∧ v.length < 2 ^ 64 := by
    have : (2 : Nat) ^ 32 < 2 ^ 64 := by norm_num
    omega
  have hrt := kvDeserialize_roundtrip k v h64.1 h64.2
  refine ⟨⟨kvSerialize_bytesOk hk hv, ?_, Or.inr ⟨ht, by rw [hrt]; rfl⟩⟩, hrt⟩
  rw [kvSerialize_length]
  exact hsz

/-- Main induction for the set engine: every run over the WAL-logged
operations is a WAL-event list whose replay is the in-memory store. -/
theorem runSet_refines (ops : List SetOp) (h : ∀ op ∈ ops, setOpWf op) :
    ∃ l, (runSet ops).wal = walAppendAll walInit l ∧ (∀ p ∈ l, SetRecWf p) ∧
      setReplayL [] l = some (runSet ops).store := by
  induction ops using List.reverseRecOn with
  | nil =>
    exact ⟨[], rfl, by simp, by simp [setReplayL, runSet, KSet.init]⟩
  | append_singleton ops op ih =>
    have hops : ∀ o ∈ ops, setOpWf o := fun o ho =>
      h o (List.mem_append.mpr (Or.inl ho))
    have hop : setOpWf op := h op (List.mem_append.mpr (Or.inr (List.mem_singleton.mpr rfl)))
    obtain ⟨l, hwal, hwf, hrep⟩ := ih hops
    have hrun : runSet (ops ++ [op]) = setStep (runSet ops) op := by
      simp [runSet, List.foldl_append]
    rw [hrun]
    have hcaseRemove : ∀ (k v : Bytes), setOpWf (SetOp.remove_from_set k v) →
        ∃ l', (KSet.remove_from_set (runSet ops) k v).wal = walAppendAll walInit l' ∧
          (∀ p ∈ l', SetRecWf p) ∧
          setReplayL [] l' = some (KSet.remove_from_set (runSet ops) k v).store := by
      intro k v hwop
      obtain ⟨hk, hv, hsz⟩ := hwop
      obtain ⟨hwfp, hrt⟩ := setKvEventWf SET_REMOVE_ACT hk hv hsz (Or.inr rfl)
      cases hfind : amFind (runSet ops).store k with
      | none =>
        have hstate : KSet.remove_from_set (runSet ops) k v =
            { store := (runSet ops).store,
              wal := store_remove_from_set_event (runSet ops).wal k v } := by
          simp [KSet.remove_from_set, hfind]
        rw [hstate]
        exact setRefineExtend (runSet ops) _ l [(SET_REMOVE_ACT, kvSerialize k v)]
          hwal hwf hrep
          (by intro p hp; rw [List.mem_singleton.mp hp]; exact hwfp)
          rfl
          (by simp [setReplayL, SET_REMOVE_ACT, hrt, hfind])
      | some hs =>
        by_cases hemp : hsRemove hs v = []
        · have hstate : KSet.remove_from_set (runSet ops) k v =
              { store := amErase (runSet ops).store k,
                wal := store_delete_event
                  (store_remove_from_set_event (runSet ops).wal k v) k } := by
            simp [KSet.remove_from_set, hfind, hemp]
          rw [hstate]
          have hkOk : bytesOk k := hk
          have hkSz : k.length < 2 ^ 32 := by omega
          refine setRefineExtend (runSet ops) _ l
            [(SET_REMOVE_ACT, kvSerialize k v), (DELETE_ACT, k)]
            hwal hwf hrep ?_ rfl ?_
          · intro p hp
            simp at hp
            rcases hp with hp | hp <;> rw [hp]
            · exact hwfp
            · exact ⟨hkOk, hkSz, Or.inl rfl⟩
          · simp only [setReplayL, SET_REMOVE_ACT, DELETE_ACT, hrt, hfind, hemp]
            rw [amErase_insert]
        · have hstate : KSet.remove_from_set (runSet ops) k v =
              { store := amInsert (runSet ops).store k (hsRemove hs v),
                wal := store_remove_from_set_event (runSet ops).wal k v } := by
            simp [KSet.remove_from_set, hfind, hemp]
          rw [hstate]
          exact setRefineExtend (runSet ops) _ l [(SET_REMOVE_ACT, kvSerialize k v)]
            hwal hwf hrep
            (by intro p hp; rw [List.mem_singleton.mp hp]; exact hwfp)
            rfl
            (by simp [setReplayL, SET_REMOVE_ACT, hrt, hfind])
    cases op with
    | append k v =>
      obtain ⟨hk, hv, hsz⟩ := hop
      obtain ⟨hwfp, hrt⟩ := setKvEventWf SET_APPEND_ACT hk hv hsz (Or.inl rfl)
      exact setRefineExtend (runSet ops) _ l [(SET_APPEND_ACT, kvSerialize k v)]
        hwal hwf hrep
        (by intro p hp; rw [List.mem_singleton.mp hp]; exact hwfp)
        rfl
        (by cases hfind : amFind (runSet ops).store k with
            | none =>
              simp [setReplayL, SET_APPEND_ACT, hrt, hfind, KSet.append, setStep]
            | some hs =>
              simp [setReplayL, SET_APPEND_ACT, hrt, hfind, KSet.append, setStep])
    | remove_from_set k v => exact hcaseRemove k v hop
    | remove_from_set_callback k v => exact hcaseRemove k v hop
    | remove_key k =>
      obtain ⟨hk, hsz⟩ := hop
      exact setRefineExtend (runSet ops) _ l [(DELETE_ACT, k)]
        hwal hwf hrep
        (by intro p hp; rw [List.mem_singleton.mp hp]; exact ⟨hk, hsz, Or.inl rfl⟩)
        rfl
        (by simp [setReplayL, DELETE_ACT, KSet.remove_key, setStep])

/-- Claim C1 (amended): for every sequence of WAL-logged mutating operations
applied to a freshly created engine — all KV operations, and the set-engine
operations outside the compute family — the forward WAL reader applied to the
exact byte sequence the WAL writer produced returns precisely the engine's
final in-memory state.  The size hypotheses keep every record within the
`u32` framing the format fixes. -/
theorem c1_forward_replay_equals_memory :
    (∀ ops : List KvOp, (∀ op ∈ ops, kvOpWf op) →
      read_forward (runKv ops).wal.writer = some (runKv ops).store) ∧
    (∀ ops : List SetOp, (∀ op ∈ ops, setOpWf op) →
      read_for_set (runSet ops).wal.writer = some (runSet ops).store) := by
  constructor
  · intro ops h
    obtain ⟨l, hwal, hwf, hrep⟩ := runKv_refines ops h
    have hwriter : (runKv ops).wal.writer = recsBytes (chunkRecs 0 l) := by
      rw [hwal, walAppendAll_writer]
      simp [walInit]
    rw [hwriter, read_forward, readFwdGo_chunk l 0 [] _ hwf (by omega)]
    exact hrep
  · intro ops h
    obtain ⟨l, hwal, hwf, hrep⟩ := runSet_refines ops h
    have hwriter : (runSet ops).wal.writer = recsBytes (chunkRecs 0 l) := by
      rw [hwal, walAppendAll_writer]
      simp [walInit]
    rw [hwriter, read_for_set, readSetGo_chunk l 0 [] _ hwf (by omega)]
    exact hrep

theorem c1_forward_replay_equals_memory_witness :
    read_forward (runKv [KvOp.put [97] [65], KvOp.remove [98]]).wal.writer =
      some (runKv [KvOp.put [97] [65], KvOp.remove [98]]).store ∧
    read_for_set
        (runSet [SetOp.append [0] [1], SetOp.remove_from_set [0] [1]]).wal.writer =
      some (runSet [SetOp.append [0] [1], SetOp.remove_from_set [0] [1]]).store :=
  ⟨c1_forward_replay_equals_memory.1 _ (by
      intro op hop
      simp at hop
      rcases hop with h | h <;> subst h
      · exact ⟨by decide, by decide, by decide⟩
      · exact ⟨by decide, by decide⟩),
   c1_forward_replay_equals_memory.2 _ (by
      intro op hop
      simp at hop
      rcases hop with h | h <;> subst h
      · exact ⟨by decide, by decide, by decide⟩
      · exact ⟨by decide, by decide, by decide⟩)⟩

/-! ### Claim C2: backward scan equals forward scan on writer-produced logs -/

/-- Resolution of a key against a newest-first KV event list: the first PUT or
DELETE for the key decides it (`some (some v)` = last write was a PUT of `v`,
`some none` = last write was a DELETE, `none` = no event mentions the key). -/
def resolveO : List (Nat × Bytes) → Bytes → Option (Option Bytes)
  | [], _ => none
  | (0, d) :: tl, k => if d = k then some none else resolveO tl k
  | (1, d) :: tl, k =>
    match kvDeserialize d with
    | some kv => if kv.1 = k then some (some kv.2) else resolveO tl k
    | none => resolveO tl k
  | (_ + 2, _) :: tl, k => resolveO tl k

theorem kvReplayL_none_append (l1 : List (Nat × Bytes)) :
    ∀ (l2 : List (Nat × Bytes)) (m : KvMap), kvReplayL m l1 = none →
      kvReplayL m (l1 ++ l2) = none := by
  induction l1 with
  | nil => intro l2 m h; simp [kvReplayL] at h
  | cons p tl ih =>
    intro l2 m h
    obtain ⟨t, d⟩ := p
    match t with
    | 0 =>
      simp only [kvReplayL, List.cons_append] at h ⊢
      exact ih l2 _ h
    | 1 =>
      simp only [kvReplayL, List.cons_append] at h ⊢
      cases hkv : kvDeserialize d with
      | none => rfl
      | some kv =>
        rw [hkv] at h
        exact ih l2 _ h
    | t + 2 => simp [kvReplayL]

theorem kvReplayL_split (l1 l2 : List (Nat × Bytes)) (m m' : KvMap)
    (h : kvReplayL m (l1 ++ l2) = some m') :
    ∃ mid, kvReplayL m l1 = some mid ∧ kvReplayL mid l2 = some m' := by
  cases hmid : kvReplayL m l1 with
  | none =>
    rw [kvReplayL_none_append l1 l2 m hmid] at h
    exact Option.noConfusion h
  | some mid =>
    rw [kvReplayL_append l1 l2 m mid hmid] at h
    exact ⟨mid, rfl, h⟩

/-- Forward replay computes last-writer-wins resolution. -/
theorem kvReplayL_resolve (l : List (Nat × Bytes)) :
    ∀ (m0 m1 : KvMap), kvReplayL m0 l = some m1 → ∀ k,
      amFind m1 k =
        match resolveO l.reverse k with
        | some o => o
        | none => amFind m0 k := by
  induction l using List.reverseRecOn with
  | nil =>
    intro m0 m1 h k
    simp [kvReplayL] at h
    subst h
    simp [resolveO]
  | append_singleton l e ih =>
    intro m0 m1 h k
    obtain ⟨t, d⟩ := e
    obtain ⟨mid, hmid, hstep⟩ := kvReplayL_split l [(t, d)] m0 m1 h
    have hrev : (l ++ [(t, d)]).reverse = (t, d) :: l.reverse := by
      simp
    rw [hrev]
    match t with
    | 0 =>
      simp only [kvReplayL] at hstep
      injection hstep with hstep
      subst hstep
      rw [resolveO]
      by_cases hdk : d = k
      · subst hdk
        rw [if_pos rfl, amFind_erase_self]
      · rw [if_neg hdk, amFind_erase_ne _ _ _ hdk, ih m0 mid hmid k]
    | 1 =>
      simp only [kvReplayL] at hstep
      cases hkv : kvDeserialize d with
      | none =>
        rw [hkv] at hstep
        exact Option.noConfusion hstep
      | some kv =>
        rw [hkv] at hstep
        injection hstep with hstep
        subst hstep
        simp only [resolveO, hkv]
        by_cases hdk : kv.1 = k
        · subst hdk
          rw [if_pos rfl, amFind_insert_self]
        · rw [if_neg hdk, amFind_insert_ne _ _ _ _ hdk, ih m0 mid hmid k]
    | t + 2 =>
      simp [kvReplayL] at hstep

/-- One record's effect in the backward first-seen-wins fold, at the level of
decoded events (the CRC check of `update_backward_reading_map` always passes
on writer-produced records; `none` covers its panics). -/
def evBwStep : KvMap × RemovedKeys → Nat × Bytes → Option (KvMap × RemovedKeys)
  | (m, r), (0, d) => some (if amFind m d = none then (m, d :: r) else (m, r))
  | (m, r), (1, d) =>
    (kvDeserialize d).map (fun kv =>
      if amFind m kv.1 = none ∧ kv.1 ∉ r then (amInsert m kv.1 kv.2, r)
      else (m, r))
  | _, (_ + 2, _) => none

/-- Backward fold over a newest-first event list. -/
def evBwRun : KvMap × RemovedKeys → List (Nat × Bytes) → Option (KvMap × RemovedKeys)
  | mr, [] => some mr
  | mr, e :: tl =>
    match evBwStep mr e with
    | none => none
    | some mr' => evBwRun mr' tl

/-- The backward fold computes the same last-writer-wins resolution. -/
theorem evBwRun_resolve (l : List (Nat × Bytes)) :
    ∀ (m : KvMap) (r : RemovedKeys) (mr' : KvMap × RemovedKeys),
      evBwRun (m, r) l = some mr' → ∀ k,
        amFind mr'.1 k =
          match amFind m k with
          | some v => some v
          | none =>
            if k ∈ r then none
            else
              match resolveO l k with
              | some o => o
              | none => none := by
  induction l with
  | nil =>
    intro m r mr' h k
    simp only [evBwRun] at h
    injection h with h
    subst h
    simp only [resolveO]
    cases hf : amFind m k with
    | some v => rfl
    | none => by_cases hr : k ∈ r <;> simp [hr]
  | cons e tl ih =>
    intro m r mr' h k
    obtain ⟨t, d⟩ := e
    match t with
    | 0 =>
      simp only [evBwRun, evBwStep] at h
      by_cases hd : amFind m d = none
      · rw [if_pos hd] at h
        have := ih m (d :: r) mr' h k
        rw [this, resolveO]
        by_cases hdk : d = k
        · subst hdk
          rw [hd]
          simp
        · rw [if_neg hdk]
          cases hf : amFind m k with
          | some v => rfl
          | none =>
            have hmem : (k ∈ d :: r) ↔ (k ∈ r) := by
              constructor
              · intro h2
                rcases List.mem_cons.mp h2 with h3 | h3
                · exact absurd h3.symm hdk
                · exact h3
              · exact List.mem_cons_of_mem _
            by_cases hr : k ∈ r
            · rw [if_pos hr, if_pos (hmem.mpr hr)]
            · rw [if_neg hr, if_neg (fun h2 => hr (hmem.mp h2))]
      · rw [if_neg hd] at h
        have := ih m r mr' h k
        rw [this, resolveO]
        by_cases hdk : d = k
        · subst hdk
          cases hf : amFind m d with
          | some v => rfl
          | none => exact absurd hf hd
        · rw [if_neg hdk]
    | 1 =>
      simp only [evBwRun, evBwStep] at h
      cases hkv : kvDeserialize d with
      | none =>
        rw [hkv] at h
        exact Option.noConfusion h
      | some kv =>
        rw [hkv] at h
        simp only [Option.map_some'] at h
        by_cases hc : amFind m kv.1 = none ∧ kv.1 ∉ r
        · rw [if_pos hc] at h
          have := ih _ _ mr' h k
          simp only [this, resolveO, hkv]
          by_cases hdk : kv.1 = k
          · subst hdk
            simp [amFind_insert_self, hc.1, hc.2]
          · rw [amFind_insert_ne _ _ _ _ hdk, if_neg hdk]
        · rw [if_neg hc] at h
          have := ih m r mr' h k
          simp only [this, resolveO, hkv]
          by_cases hdk : kv.1 = k
          · subst hdk
            cases hf : amFind m kv.1 with
            | some v => rfl
            | none =>
              have hr : kv.1 ∈ r := by
                by_contra hr
                exact hc ⟨hf, hr⟩
              simp [hf, hr]
          · rw [if_neg hdk]
    | t + 2 =>
      simp [evBwRun, evBwStep] at h

/-- Total serialized length of an event list (each record occupies
`FIXED_BLOCK_LEN + payload length` bytes). -/
def totalLen : List (Nat × Bytes) → Nat
  | [] => 0
  | (_, d) :: tl => 13 + d.length + totalLen tl

theorem recsBytes_chunkRecs_length (l : List (Nat × Bytes)) :
    ∀ ofs : Nat, (recsBytes (chunkRecs ofs l)).length = totalLen l := by
  induction l with
  | nil => intro ofs; simp [chunkRecs, recsBytes, totalLen]
  | cons p tl ih =>
    intro ofs
    obtain ⟨t, d⟩ := p
    rw [totalLen, chunkRecs, recsBytes_cons, List.length_append,
      encodeRecord_length, ih]
    simp [mkAction, FIXED_BLOCK_LEN]

theorem totalLen_append (l1 l2 : List (Nat × Bytes)) :
    totalLen (l1 ++ l2) = totalLen l1 + totalLen l2 := by
  induction l1 with
  | nil => simp [totalLen]
  | cons p tl ih =>
    obtain ⟨t, d⟩ := p
    simp [totalLen, ih]
    omega

theorem totalLen_ge_length (l : List (Nat × Bytes)) : l.length ≤ totalLen l := by
  induction l with
  | nil => simp [totalLen]
  | cons p tl ih =>
    obtain ⟨t, d⟩ := p
    simp [totalLen]
    omega

theorem totalLen_pos {l : List (Nat × Bytes)} (h : l ≠ []) : 0 < totalLen l := by
  match l with
  | [] => exact absurd rfl h
  | (t, d) :: tl => simp [totalLen]

theorem chunkRecs_append (l1 : List (Nat × Bytes)) :
    ∀ (l2 : List (Nat × Bytes)) (ofs : Nat), (∀ p ∈ l1, p.2.length < 2 ^ 32) →
      chunkRecs ofs (l1 ++ l2) =
        chunkRecs ofs l1 ++ chunkRecs (ofs + totalLen l1) l2 := by
  induction l1 with
  | nil => intro l2 ofs _; simp [chunkRecs, totalLen]
  | cons p tl ih =>
    intro l2 ofs h
    obtain ⟨t, d⟩ := p
    have hd : d.length < 2 ^ 32 := h (t, d) (List.mem_cons_self _ _)
    have htl : ∀ p ∈ tl, p.2.length < 2 ^ 32 := fun p hp =>
      h p (List.mem_cons_of_mem _ hp)
    have heq : ofs + d.length % 2 ^ 32 + FIXED_BLOCK_LEN + totalLen tl =
        ofs + totalLen ((t, d) :: tl) := by
      rw [Nat.mod_eq_of_lt hd, totalLen]
      have h13 : FIXED_BLOCK_LEN = 13 := rfl
      omega
    simp only [List.cons_append, chunkRecs, List.append_eq]
    rw [ih l2 _ htl, heq]

/-- Splitting an encoded record into its head fields and its back-link
trailer. -/
theorem encodeRecord_split (a : StoredAction) :
    encodeRecord a =
      (a.actType :: (u32le a.crc ++ u32le a.dataSize ++ a.data)) ++
        u32le a.startOffset := by
  simp [encodeRecord]

/-- Reading the 4 bytes that end at position `pre.length + 4` returns the
4-byte block sitting there. -/
theorem prev_block_at_boundary (pre T Y : Bytes) (hT : T.length = 4) :
    prev_block_start_offset (pre.length + 4) (pre ++ (T ++ Y)) =
      some (leDec T) := by
  unfold prev_block_start_offset
  rw [if_pos (by constructor <;> simp <;> omega)]
  have hdrop : (pre ++ (T ++ Y)).drop (pre.length + 4 - 4) = T ++ Y := by
    simp only [Nat.add_sub_cancel]
    exact List.drop_left _ _
  rw [hdrop, List.take_left' hT]

/-- `update_backward_reading_map` on a writer-produced record is exactly the
decoded backward step (its CRC checks always pass on such records). -/
theorem update_backward_eq (t : Nat) (d : Bytes) (a : StoredAction)
    (hact : a.actType = t) (hdata : a.data = d) (hcrc : a.crc = crc32 d)
    (hwf : KvRecWf (t, d)) (m : KvMap) (r : RemovedKeys) :
    update_backward_reading_map a m r = evBwStep (m, r) (t, d) := by
  obtain ⟨hbytes, hsize, hkind⟩ := hwf
  rcases hkind with h0 | ⟨h1, hdes⟩
  · simp only at h0
    subst h0
    by_cases hf : amFind m d = none <;>
      simp [update_backward_reading_map, evBwStep, hact, hdata, hcrc,
        DELETE_ACT, hf]
  · simp only at h1 hdes
    subst h1
    obtain ⟨kv, hkv⟩ := Option.isSome_iff_exists.mp hdes
    by_cases hc : amFind m kv.1 = none ∧ kv.1 ∉ r <;>
      simp [update_backward_reading_map, evBwStep, hact, hdata, hcrc,
        PUT_ACT, DELETE_ACT, hkv, hc]

/-- Replay is total on well-formed event lists. -/
theorem kvReplayL_total (l : List (Nat × Bytes)) :
    ∀ m : KvMap, (∀ p ∈ l, KvRecWf p) → ∃ m', kvReplayL m l = some m' := by
  induction l with
  | nil => intro m _; exact ⟨m, rfl⟩
  | cons p tl ih =>
    intro m h
    obtain ⟨t, d⟩ := p
    have hw : KvRecWf (t, d) := h _ (List.mem_cons_self _ _)
    have htl : ∀ p ∈ tl, KvRecWf p := fun p hp => h p (List.mem_cons_of_mem _ hp)
    obtain ⟨_, _, hkind⟩ := hw
    simp only [DELETE_ACT, PUT_ACT] at hkind
    match t with
    | 0 =>
      simp only [kvReplayL]
      exact ih (amErase m d) htl
    | 1 =>
      have hdes : (kvDeserialize d).isSome := by
        rcases hkind with h0 | ⟨_, hdes⟩
        · exact absurd h0 (by decide)
        · exact hdes
      obtain ⟨kv, hkv⟩ := Option.isSome_iff_exists.mp hdes
      simp only [kvReplayL, hkv]
      exact ih _ htl
    | t + 2 =>
      exfalso
      rcases hkind with h0 | ⟨h1, _⟩ <;> omega

/-- The backward fold is total on well-formed event lists. -/
theorem evBwRun_total (l : List (Nat × Bytes)) :
    ∀ (m : KvMap) (r : RemovedKeys), (∀ p ∈ l, KvRecWf p) →
      ∃ mr', evBwRun (m, r) l = some mr' := by
  induction l with
  | nil => intro m r _; exact ⟨(m, r), rfl⟩
  | cons p tl ih =>
    intro m r h
    obtain ⟨t, d⟩ := p
    have hw : KvRecWf (t, d) := h _ (List.mem_cons_self _ _)
    have htl : ∀ p ∈ tl, KvRecWf p := fun p hp => h p (List.mem_cons_of_mem _ hp)
    obtain ⟨_, _, hkind⟩ := hw
    simp only [DELETE_ACT, PUT_ACT] at hkind
    match t with
    | 0 =>
      simp only [evBwRun, evBwStep]
      by_cases hf : amFind m d = none
      · rw [if_pos hf]
        exact ih m (d :: r) htl
      · rw [if_neg hf]
        exact ih m r htl
    | 1 =>
      have hdes : (kvDeserialize d).isSome := by
        rcases hkind with h0 | ⟨_, hdes⟩
        · exact absurd h0 (by decide)
        · exact hdes
      obtain ⟨kv, hkv⟩ := Option.isSome_iff_exists.mp hdes
      simp only [evBwRun, evBwStep, hkv, Option.map_some']
      by_cases hc : amFind m kv.1 = none ∧ kv.1 ∉ r
      · rw [if_pos hc]
        exact ih _ _ htl
      · rw [if_neg hc]
        exact ih m r htl
    | t + 2 =>
      exfalso
      rcases hkind with h0 | ⟨h1, _⟩ <;> omega

theorem recsBytes_append (xs ys : List StoredAction) :
    recsBytes (xs ++ ys) = recsBytes xs ++ recsBytes ys := by
  simp [recsBytes]

theorem bwLoop_step (f : Nat) (bytes : Bytes) (cur ofs : Nat) (a : StoredAction)
    (rest : Bytes) (m : KvMap) (r : RemovedKeys) (mr1 : KvMap × RemovedKeys)
    (hprev : prev_block_start_offset cur bytes = some ofs)
    (hp : parseRecord (bytes.drop ofs) = some (a, rest))
    (hu : update_backward_reading_map a m r = some mr1) :
    bwLoop (f + 1) bytes cur m r =
      if a.startOffset = 0 then .ok mr1.1
      else bwLoop f bytes a.startOffset mr1.1 mr1.2 := by
  rw [bwLoop, hprev]
  show (match parseRecord (bytes.drop ofs) with
        | none => BwOutcome.panic
        | some (a, _) =>
          match update_backward_reading_map a m r with
          | none => BwOutcome.panic
          | some (m', r') =>
            if a.startOffset = 0 then BwOutcome.ok m'
            else bwLoop f bytes a.startOffset m' r') = _
  rw [hp]
  show (match update_backward_reading_map a m r with
        | none => BwOutcome.panic
        | some (m', r') =>
          if a.startOffset = 0 then BwOutcome.ok m'
          else bwLoop f bytes a.startOffset m' r') = _
  rw [hu]

/-- Backward traversal of a writer-produced log processes exactly the records
of the prefix `l1`, newest first, as the decoded backward fold does: starting
at the end position of `l1`'s records, the loop stops with `Ok` of the fold's
map. -/
theorem bwLoop_chunk (l1 : List (Nat × Bytes)) :
    ∀ (l2 : List (Nat × Bytes)) (m : KvMap) (r : RemovedKeys) (fuel : Nat)
      (mr' : KvMap × RemovedKeys),
      l1 ≠ [] →
      (∀ p ∈ l1, KvRecWf p) →
      totalLen (l1 ++ l2) < 2 ^ 32 →
      l1.length < fuel →
      evBwRun (m, r) l1.reverse = some mr' →
      bwLoop fuel (recsBytes (chunkRecs 0 (l1 ++ l2))) (totalLen l1) m r =
        .ok mr'.1 := by
  induction l1 using List.reverseRecOn with
  | nil => intro l2 m r fuel mr' hne; exact absurd rfl hne
  | append_singleton l' e ih =>
    intro l2 m r fuel mr' _ hwf hbound hfuel hbw
    obtain ⟨t, d⟩ := e
    have hwf' : ∀ p ∈ l', KvRecWf p := fun p hp =>
      hwf p (List.mem_append.mpr (Or.inl hp))
    have hwtd : KvRecWf (t, d) :=
      hwf _ (List.mem_append.mpr (Or.inr (List.mem_singleton.mpr rfl)))
    have hsz' : ∀ p ∈ l', p.2.length < 2 ^ 32 := fun p hp => (hwf' p hp).2.1
    have hassoc : (l' ++ [(t, d)]) ++ l2 = l' ++ ((t, d) :: l2) := by
      simp
    have htot1 : totalLen (l' ++ [(t, d)]) = totalLen l' + (13 + d.length) := by
      rw [totalLen_append]
      simp [totalLen]
    have htotXb : totalLen l' + (13 + d.length) < 2 ^ 32 := by
      have := hbound
      rw [totalLen_append, htot1] at this
      omega
    have hXlt : totalLen l' < 2 ^ 32 := by omega
    -- decompose the byte buffer around the record of (t, d)
    have hchunks : chunkRecs 0 ((l' ++ [(t, d)]) ++ l2) =
        chunkRecs 0 l' ++
          (mkAction t d (totalLen l') ::
            chunkRecs (totalLen l' + d.length % 2 ^ 32 + FIXED_BLOCK_LEN) l2) := by
      rw [hassoc, chunkRecs_append l' ((t, d) :: l2) 0 hsz']
      rw [Nat.zero_add, chunkRecs]
    have hbytes : recsBytes (chunkRecs 0 ((l' ++ [(t, d)]) ++ l2)) =
        recsBytes (chunkRecs 0 l') ++
          (encodeRecord (mkAction t d (totalLen l')) ++
            recsBytes (chunkRecs (totalLen l' + d.length % 2 ^ 32 + FIXED_BLOCK_LEN) l2)) := by
      rw [hchunks, recsBytes_append, recsBytes_cons]
    have hlen1 : (recsBytes (chunkRecs 0 l')).length = totalLen l' :=
      recsBytes_chunkRecs_length l' 0
    match fuel with
    | f + 1 =>
      -- the back-link read at the end of (t, d)'s record
      have hprev : prev_block_start_offset (totalLen (l' ++ [(t, d)]))
          (recsBytes (chunkRecs 0 ((l' ++ [(t, d)]) ++ l2))) =
          some (totalLen l') := by
        have hsplit : recsBytes (chunkRecs 0 ((l' ++ [(t, d)]) ++ l2)) =
            (recsBytes (chunkRecs 0 l') ++
              ((mkAction t d (totalLen l')).actType ::
                (u32le (mkAction t d (totalLen l')).crc ++
                  u32le (mkAction t d (totalLen l')).dataSize ++
                  (mkAction t d (totalLen l')).data))) ++
              (u32le (totalLen l') ++
                recsBytes (chunkRecs (totalLen l' + d.length % 2 ^ 32 + FIXED_BLOCK_LEN) l2)) := by
          rw [hbytes, encodeRecord_split]
          have hso : (mkAction t d (totalLen l')).startOffset = totalLen l' := rfl
          rw [hso]
          simp [List.append_assoc]
        have hplen : (recsBytes (chunkRecs 0 l') ++
            ((mkAction t d (totalLen l')).actType ::
              (u32le (mkAction t d (totalLen l')).crc ++
                u32le (mkAction t d (totalLen l')).dataSize ++
                (mkAction t d (totalLen l')).data))).length + 4 =
            totalLen (l' ++ [(t, d)]) := by
          simp [hlen1, u32le, mkAction, htot1]
          omega
        rw [hsplit, ← hplen]
        rw [prev_block_at_boundary _ _ _ (u32le_length _)]
        rw [leDec_u32le, Nat.mod_eq_of_lt hXlt]
      -- parsing at the record's start offset
      have hdrop : (recsBytes (chunkRecs 0 ((l' ++ [(t, d)]) ++ l2))).drop
          (totalLen l') =
          encodeRecord (mkAction t d (totalLen l')) ++
            recsBytes (chunkRecs (totalLen l' + d.length % 2 ^ 32 + FIXED_BLOCK_LEN) l2) := by
        rw [hbytes, List.drop_left' hlen1]
      have hds : (mkAction t d (totalLen l')).dataSize =
          (mkAction t d (totalLen l')).data.length := by
        simp only [mkAction]
        exact Nat.mod_eq_of_lt hwtd.2.1
      have hdlt : (mkAction t d (totalLen l')).data.length < 2 ^ 32 := by
        simpa [mkAction] using hwtd.2.1
      have hclt : (mkAction t d (totalLen l')).crc < 2 ^ 32 := by
        simpa [mkAction] using crc32_lt hwtd.1
      have hparse : parseRecord
          ((recsBytes (chunkRecs 0 ((l' ++ [(t, d)]) ++ l2))).drop (totalLen l')) =
          some ({ mkAction t d (totalLen l') with
              startOffset := (mkAction t d (totalLen l')).startOffset % 2 ^ 32 },
            recsBytes (chunkRecs (totalLen l' + d.length % 2 ^ 32 + FIXED_BLOCK_LEN) l2)) := by
        rw [hdrop]
        exact parseRecord_encode _ _ hds hdlt hclt
      -- the backward fold takes one step on (t, d)
      have hrev : (l' ++ [(t, d)]).reverse = (t, d) :: l'.reverse := by
        simp
      rw [hrev] at hbw
      rw [evBwRun] at hbw
      cases hstep : evBwStep (m, r) (t, d) with
      | none =>
        rw [hstep] at hbw
        exact Option.noConfusion hbw
      | some mr1 =>
        rw [hstep] at hbw
        have hupd : update_backward_reading_map
            { mkAction t d (totalLen l') with
              startOffset := (mkAction t d (totalLen l')).startOffset % 2 ^ 32 }
            m r = some mr1 := by
          rw [update_backward_eq t d _ rfl rfl rfl hwtd m r]
          exact hstep
        rw [bwLoop_step f _ _ _ _ _ _ _ _ hprev hparse hupd]
        have hsoEq : ({ mkAction t d (totalLen l') with
            startOffset := (mkAction t d (totalLen l')).startOffset % 2 ^ 32 } :
              StoredAction).startOffset = totalLen l' := by
          simp only [mkAction]
          exact Nat.mod_eq_of_lt hXlt
        rw [hsoEq]
        rcases List.eq_nil_or_concat l' with hnil | ⟨l2h, e2, hcons⟩
        · subst hnil
          rw [if_pos (show totalLen ([] : List (Nat × Bytes)) = 0 by rfl)]
          simp only [List.reverse_nil, evBwRun] at hbw
          injection hbw with hbw
          rw [hbw]
        · have hne' : l' ≠ [] := by
            rw [hcons]
            intro hcontra
            exact absurd hcontra (by simp)
          have hX : ¬ totalLen l' = 0 := by
            have := totalLen_pos hne'
            omega
          rw [if_neg hX]
          have hIH := ih ((t, d) :: l2) mr1.1 mr1.2 f mr' hne' hwf'
            (by rw [← hassoc]; exact hbound)
            (by
              have := hfuel
              simp only [List.length_append, List.length_singleton] at this
              omega)
            hbw
          rw [hassoc]
          exact hIH

instance (p : Nat × Bytes) : Decidable (KvRecWf p) := by
  unfold KvRecWf
  infer_instance

/-- Claim C2: on every well-formed KV WAL byte sequence produced by the writer
(a sequence of `store_put_event` / `store_delete_event` records, within the
`u32` framing), if `read_backward` returns `Ok m`, then `read_forward` on the
same bytes succeeds and returns a map extensionally equal to `m`: the
backward first-seen-wins scan computes the forward last-writer-wins
result. -/
theorem c2_backward_equals_forward (l : List (Nat × Bytes))
    (hwf : ∀ p ∈ l, KvRecWf p) (hbound : totalLen l < 2 ^ 32) (m : KvMap)
    (hb : read_backward (walAppendAll walInit l).writer = .ok m) :
    ∃ m', read_forward (walAppendAll walInit l).writer = some m' ∧
      ∀ k, amFind m' k = amFind m k := by
  have hwriter : (walAppendAll walInit l).writer = recsBytes (chunkRecs 0 l) := by
    rw [walAppendAll_writer]
    simp [walInit]
  rw [hwriter] at hb ⊢
  by_cases hl : l = []
  · subst hl
    have hpanic : read_backward (recsBytes (chunkRecs 0 ([] : List (Nat × Bytes)))) =
        .panic := by decide
    rw [hpanic] at hb
    exact BwOutcome.noConfusion hb
  · obtain ⟨mr', hrun⟩ := evBwRun_total l.reverse [] []
      (fun p hp => hwf p (List.mem_reverse.mp hp))
    have hlen : (recsBytes (chunkRecs 0 l)).length = totalLen l :=
      recsBytes_chunkRecs_length l 0
    have hL := bwLoop_chunk l [] [] [] ((recsBytes (chunkRecs 0 l)).length + 1)
      mr' hl hwf (by simpa using hbound)
      (by rw [hlen]; have := totalLen_ge_length l; omega) hrun
    have hrb : read_backward (recsBytes (chunkRecs 0 l)) = .ok mr'.1 := by
      rw [read_backward]
      nth_rewrite 2 [hlen]
      simpa using hL
    rw [hrb] at hb
    have hmEq : mr'.1 = m := by injection hb
    obtain ⟨mf, hmf⟩ := kvReplayL_total l [] hwf
    have hfwd : read_forward (recsBytes (chunkRecs 0 l)) = some mf := by
      rw [read_forward, readFwdGo_chunk l 0 [] _ hwf (by omega)]
      exact hmf
    refine ⟨mf, hfwd, ?_⟩
    intro k
    have h1 := kvReplayL_resolve l [] mf hmf k
    have h2 := evBwRun_resolve l.reverse [] [] mr' hrun k
    simp only [amFind, List.not_mem_nil, if_false] at h1 h2
    rw [← hmEq, h1, h2]

theorem c2_backward_equals_forward_witness :
    ∃ m', read_forward (walAppendAll walInit
        [(1, kvSerialize [97] [65]), (1, kvSerialize [97] [66]),
          (0, [98])]).writer = some m' ∧
      ∀ k, amFind m' k = amFind ([([97], [66])] : KvMap) k :=
  c2_backward_equals_forward
    [(1, kvSerialize [97] [65]), (1, kvSerialize [97] [66]), (0, [98])]
    (by decide) (by decide) [([97], [66])] (by decide)

/-! ### Claim C4, amended: non-empty inner containers -/

theorem hsInsert_ne_nil (s : ByteSet) (e : Bytes) : hsInsert s e ≠ [] := by
  unfold hsInsert
  by_cases h : e ∈ s
  · rw [if_pos h]
    exact List.ne_nil_of_mem h
  · rw [if_neg h]
    exact List.cons_ne_nil _ _

theorem smInsert_ne_nil (m : SMap) (k : SearchKey) (v : Bytes) :
    smInsert m k v ≠ [] := by
  match m with
  | [] => simp [smInsert]
  | (k', v') :: t =>
    rw [smInsert]
    cases searchKeyCmp k k' <;> simp

/-- Every WAL-logged set-engine operation preserves non-emptiness of all
inner containers, dropping the outer key in the same step when the container
empties. -/
theorem setStep_preserves_inv (s : DurableKeySetStore) (op : SetOp)
    (h : ∀ p ∈ s.store, p.2 ≠ []) : ∀ p ∈ (setStep s op).store, p.2 ≠ [] := by
  have hremove : ∀ (k v : Bytes), ∀ p ∈ (KSet.remove_from_set s k v).store,
      p.2 ≠ [] := by
    intro k v p hp
    cases hfind : amFind s.store k with
    | none =>
      have hst : (KSet.remove_from_set s k v).store = s.store := by
        simp [KSet.remove_from_set, hfind]
      rw [hst] at hp
      exact h p hp
    | some hs =>
      by_cases hemp : hsRemove hs v = []
      · have hst : (KSet.remove_from_set s k v).store = amErase s.store k := by
          simp [KSet.remove_from_set, hfind, hemp]
        rw [hst] at hp
        exact h p (amErase_mem hp)
      · have hst : (KSet.remove_from_set s k v).store =
            amInsert s.store k (hsRemove hs v) := by
          simp [KSet.remove_from_set, hfind, hemp]
        rw [hst] at hp
        rcases amInsert_mem hp with hp | hp
        · exact h p hp
        · rw [hp]; exact hemp
  cases op with
  | append k v =>
    intro p hp
    cases hfind : amFind s.store k with
    | none =>
      have hst : (setStep s (SetOp.append k v)).store =
          amInsert s.store k (hsInsert [] v) := by
        simp [setStep, KSet.append, hfind]
      rw [hst] at hp
      rcases amInsert_mem hp with hp | hp
      · exact h p hp
      · rw [hp]; exact hsInsert_ne_nil _ _
    | some hs =>
      have hst : (setStep s (SetOp.append k v)).store =
          amInsert s.store k (hsInsert hs v) := by
        simp [setStep, KSet.append, hfind]
      rw [hst] at hp
      rcases amInsert_mem hp with hp | hp
      · exact h p hp
      · rw [hp]; exact hsInsert_ne_nil _ _
  | remove_from_set k v => exact hremove k v
  | remove_from_set_callback k v => exact hremove k v
  | remove_key k =>
    intro p hp
    have hst : (setStep s (SetOp.remove_key k)).store = amErase s.store k := rfl
    rw [hst] at hp
    exact h p (amErase_mem hp)

/-- Every WAL-logged sorted-map operation that completes preserves
non-emptiness of all inner containers. -/
theorem mapStep_preserves_inv (s s' : DurableKeyMapStore) (op : MapOp)
    (hstep : mapStep s op = some s') (h : ∀ p ∈ s.store, p.2 ≠ []) :
    ∀ p ∈ s'.store, p.2 ≠ [] := by
  have hremove : ∀ (k : Bytes) (sk : SearchKey),
      ∀ p ∈ (KMap.remove_from_sorted_map s k sk).1.store, p.2 ≠ [] := by
    intro k sk p hp
    cases hfind : amFind s.store k with
    | none =>
      have hst : (KMap.remove_from_sorted_map s k sk).1.store = s.store := by
        simp [KMap.remove_from_sorted_map, store_remove_from_sorted_map_event,
          hfind]
      rw [hst] at hp
      exact h p hp
    | some m =>
      by_cases hemp : smRemove m sk = []
      · have hst : (KMap.remove_from_sorted_map s k sk).1.store =
            amErase s.store k := by
          simp [KMap.remove_from_sorted_map, store_remove_from_sorted_map_event,
            hfind, hemp]
        rw [hst] at hp
        exact h p (amErase_mem hp)
      · have hst : (KMap.remove_from_sorted_map s k sk).1.store =
            amInsert s.store k (smRemove m sk) := by
          simp [KMap.remove_from_sorted_map, store_remove_from_sorted_map_event,
            hfind, hemp]
        rw [hst] at hp
        rcases amInsert_mem hp with hp | hp
        · exact h p hp
        · rw [hp]; exact hemp
  cases op with
  | put k sk v =>
    simp only [mapStep] at hstep
    injection hstep with hstep
    subst hstep
    intro p hp
    cases hfind : amFind s.store k with
    | none =>
      have hst : (KMap.put s k sk v).store =
          amInsert s.store k (smInsert [] sk v) := by
        simp [KMap.put, store_put_to_map_event, hfind]
      rw [hst] at hp
      rcases amInsert_mem hp with hp | hp
      · exact h p hp
      · rw [hp]; exact smInsert_ne_nil _ _ _
    | some m =>
      have hst : (KMap.put s k sk v).store =
          amInsert s.store k (smInsert m sk v) := by
        simp [KMap.put, store_put_to_map_event, hfind]
      rw [hst] at hp
      rcases amInsert_mem hp with hp | hp
      · exact h p hp
      · rw [hp]; exact smInsert_ne_nil _ _ _
  | remove_from_sorted_map k sk =>
    simp only [mapStep] at hstep
    injection hstep with hstep
    subst hstep
    exact hremove k sk
  | remove_from_sorted_map_callback k sk =>
    simp only [mapStep] at hstep
    injection hstep with hstep
    subst hstep
    exact hremove k sk
  | remove_key k =>
    simp only [mapStep] at hstep
    injection hstep with hstep
    subst hstep
    intro p hp
    have hst : (KMap.remove_key s k).store = amErase s.store k := rfl
    rw [hst] at hp
    exact h p (amErase_mem hp)
  | pop_first k =>
    simp only [mapStep] at hstep
    injection hstep with hstep
    subst hstep
    intro p hp
    cases hfind : amFind s.store k with
    | none =>
      have hst : (KMap.pop_first s k).1.store = s.store := by
        simp [KMap.pop_first, hfind]
      rw [hst] at hp
      exact h p hp
    | some m =>
      cases hpop : smPopFirst m with
      | none =>
        have hst : (KMap.pop_first s k).1.store = amErase s.store k := by
          simp [KMap.pop_first, hfind, hpop]
        rw [hst] at hp
        exact h p (amErase_mem hp)
      | some pr =>
        obtain ⟨⟨sk, el⟩, rest⟩ := pr
        by_cases hrest : rest = []
        · have hst : (KMap.pop_first s k).1.store = amErase s.store k := by
            simp [KMap.pop_first, hfind, hpop, hrest,
              store_remove_from_sorted_map_event]
          rw [hst] at hp
          exact h p (amErase_mem hp)
        · have hst : (KMap.pop_first s k).1.store =
              amInsert s.store k rest := by
            simp [KMap.pop_first, hfind, hpop, hrest,
              store_remove_from_sorted_map_event]
          rw [hst] at hp
          rcases amInsert_mem hp with hp | hp
          · exact h p hp
          · rw [hp]; exact hrest
  | pop_last k =>
    simp only [mapStep] at hstep
    injection hstep with hstep
    subst hstep
    intro p hp
    cases hfind : amFind s.store k with
    | none =>
      have hst : (KMap.pop_last s k).1.store = s.store := by
        simp [KMap.pop_last, hfind]
      rw [hst] at hp
      exact h p hp
    | some m =>
      cases hpop : smPopLast m with
      | none =>
        have hst : (KMap.pop_last s k).1.store = amErase s.store k := by
          simp [KMap.pop_last, hfind, hpop]
        rw [hst] at hp
        exact h p (amErase_mem hp)
      | some pr =>
        obtain ⟨⟨sk, el⟩, rest⟩ := pr
        by_cases hrest : rest = []
        · have hst : (KMap.pop_last s k).1.store = amErase s.store k := by
            simp [KMap.pop_last, hfind, hpop, hrest,
              store_remove_from_sorted_map_event]
          rw [hst] at hp
          exact h p (amErase_mem hp)
        · have hst : (KMap.pop_last s k).1.store =
              amInsert s.store k rest := by
            simp [KMap.pop_last, hfind, hpop, hrest,
              store_remove_from_sorted_map_event]
          rw [hst] at hp
          rcases amInsert_mem hp with hp | hp
          · exact h p hp
          · rw [hp]; exact hrest
  | append_ordered_element k v =>
    simp only [mapStep, KMap.append_ordered_element] at hstep
    cases hfind : amFind s.store k with
    | none =>
      simp only [hfind, store_put_to_map_event] at hstep
      injection hstep with hstep
      subst hstep
      intro p hp
      rcases amInsert_mem hp with hp | hp
      · exact h p hp
      · rw [hp]; exact smInsert_ne_nil _ _ _
    | some m =>
      simp only [hfind] at hstep
      cases hlast : smLast m with
      | none =>
        simp only [hlast, store_put_to_map_event] at hstep
        injection hstep with hstep
        subst hstep
        intro p hp
        rcases amInsert_mem hp with hp | hp
        · exact h p hp
        · rw [hp]; exact smInsert_ne_nil _ _ _
      | some lastEntry =>
        simp only [hlast] at hstep
        cases hhead : lastEntry.1.keys.head? with
        | none =>
          simp only [hhead] at hstep
          exact Option.noConfusion hstep
        | some c =>
          simp only [hhead, store_put_to_map_event] at hstep
          injection hstep with hstep
          subst hstep
          intro p hp
          rcases amInsert_mem hp with hp | hp
          · exact h p hp
          · rw [hp]; exact smInsert_ne_nil _ _ _

/-- Claim C4 (amended): in every state reachable from an empty store by the
WAL-logged public operations (the compute family excluded), every outer key
present in memory has a non-empty inner container — in particular every
mutation that empties an inner container removes the outer key in the same
step. -/
theorem c4_nonempty_container_invariant :
    (∀ (ops : List SetOp), ∀ p ∈ (runSet ops).store, p.2 ≠ []) ∧
    (∀ (ops : List MapOp) (st : DurableKeyMapStore), runMap ops = some st →
      ∀ p ∈ st.store, p.2 ≠ []) := by
  constructor
  · intro ops
    have hgen : ∀ (ops : List SetOp) (s : DurableKeySetStore),
        (∀ p ∈ s.store, p.2 ≠ []) →
        ∀ p ∈ (ops.foldl setStep s).store, p.2 ≠ [] := by
      intro ops
      induction ops with
      | nil => intro s h; exact h
      | cons op tl ih =>
        intro s h
        exact ih (setStep s op) (setStep_preserves_inv s op h)
    exact hgen ops KSet.init (by intro p hp; simp [KSet.init] at hp)
  · have hnone : ∀ (ops : List MapOp),
        ops.foldl (fun acc op => acc.bind (fun s => mapStep s op))
          (none : Option DurableKeyMapStore) = none := by
      intro ops
      induction ops with
      | nil => rfl
      | cons op tl ih => simpa using ih
    have hgen : ∀ (ops : List MapOp) (s : DurableKeyMapStore),
        (∀ p ∈ s.store, p.2 ≠ []) →
        ∀ st, ops.foldl (fun acc op => acc.bind (fun s => mapStep s op))
            (some s) = some st →
          ∀ p ∈ st.store, p.2 ≠ [] := by
      intro ops
      induction ops with
      | nil =>
        intro s h st hrun
        simp at hrun
        subst hrun
        exact h
      | cons op tl ih =>
        intro s h st hrun
        simp only [List.foldl_cons, Option.some_bind] at hrun
        cases hstep : mapStep s op with
        | none =>
          rw [hstep] at hrun
          rw [hnone tl] at hrun
          exact Option.noConfusion hrun
        | some s1 =>
          rw [hstep] at hrun
          exact ih s1 (mapStep_preserves_inv s s1 op hstep h) st hrun
    intro ops st hrun
    exact hgen ops KMap.init (by intro p hp; simp [KMap.init] at hp) st hrun

theorem c4_nonempty_container_invariant_witness :
    (∀ p ∈ (runSet [SetOp.append [0] [1],
        SetOp.remove_from_set [0] [1]]).store, p.2 ≠ []) ∧
    (∀ p ∈ (DurableKeyMapStore.mk [([0], [(skUsize 0, [7])])]
        ((store_put_to_map_event walInit [0] (skUsize 0) [7]).1)).store,
      p.2 ≠ []) :=
  ⟨c4_nonempty_container_invariant.1
      [SetOp.append [0] [1], SetOp.remove_from_set [0] [1]],
   c4_nonempty_container_invariant.2 [MapOp.append_ordered_element [0] [7]]
      (DurableKeyMapStore.mk [([0], [(skUsize 0, [7])])]
        ((store_put_to_map_event walInit [0] (skUsize 0) [7]).1))
      (by decide)⟩

/-! ### Claim C6, amended: characterization of append_ordered_element -/

/-- Two single-component `USIZE` SearchKeys compare exactly as their
numeric payloads. -/
theorem searchKeyCmp_skUsize (a b : Nat) :
    searchKeyCmp (skUsize a) (skUsize b) = compare a b := by
  cases h : compare a b <;>
    simp [searchKeyCmp, skUsize, listCmp, keyCmp, h]

/-- Inserting a key strictly greater than every key of the map appends the
new entry at the end. -/
theorem smInsert_append_of_gt (m : SMap) (k : SearchKey) (v : Bytes)
    (h : ∀ p ∈ m, searchKeyCmp k p.1 = .gt) :
    smInsert m k v = m ++ [(k, v)] := by
  induction m with
  | nil => rfl
  | cons hd tl ih =>
    obtain ⟨k1, v1⟩ := hd
    have hk : searchKeyCmp k k1 = .gt := h (k1, v1) (by simp)
    simp only [smInsert, hk]
    rw [ih (fun p hp => h p (by simp [hp]))]
    simp

/-- Splitting the last operation off a sorted-map run. -/
theorem runMap_append (ops : List MapOp) (op : MapOp) :
    runMap (ops ++ [op]) = (runMap ops).bind (fun s => mapStep s op) := by
  simp [runMap, List.foldl_append]

/-- `k+1` successive `append_ordered_element` calls on a fresh engine build
the singleton store whose inner map holds exactly `USIZE 0, ..., USIZE k`,
as long as the wrapping `usize` successor never overflows (`k < 2^64`). -/
theorem aoeRunReplicate (key el : Bytes) :
    ∀ k, k < 2 ^ 64 → ∃ w, runMap (List.replicate (k+1)
        (MapOp.append_ordered_element key el)) =
      some (DurableKeyMapStore.mk
        [(key, (List.range (k+1)).map fun i => (skUsize i, el))] w) := by
  intro k
  induction k with
  | zero =>
    intro hk
    exact ⟨(store_put_to_map_event walInit key (skUsize 0) el).1, rfl⟩
  | succ n ih =>
    intro hk
    obtain ⟨w, hw⟩ := ih (Nat.lt_of_succ_lt hk)
    have hmod : (n + 1) % 2 ^ 64 = n + 1 := Nat.mod_eq_of_lt hk
    refine ⟨(store_put_to_map_event w key (skUsize (n+1)) el).1, ?_⟩
    rw [List.replicate_succ' (n+1), runMap_append, hw]
    have hfind : amFind
        [(key, (List.range (n+1)).map fun i => (skUsize i, el))] key =
        some ((List.range (n+1)).map fun i => (skUsize i, el)) := by
      simp [amFind]
    have hlastm : smLast ((List.range (n+1)).map fun i => (skUsize i, el)) =
        some (skUsize n, el) := by
      rw [List.range_succ, List.map_append]
      simp [smLast]
    have hgt : ∀ p ∈ (List.range (n+1)).map (fun i => (skUsize i, el)),
        searchKeyCmp (skUsize (n+1)) p.1 = .gt := by
      intro p hp
      simp only [List.mem_map, List.mem_range] at hp
      obtain ⟨i, hi, rfl⟩ := hp
      rw [searchKeyCmp_skUsize]
      exact Nat.compare_eq_gt.mpr hi
    have hins : smInsert ((List.range (n+1)).map fun i => (skUsize i, el))
        (skUsize (n+1)) el =
        (List.range (n+1+1)).map fun i => (skUsize i, el) := by
      rw [smInsert_append_of_gt _ _ _ hgt, List.range_succ (n+1),
        List.map_append]
      simp
    simp only [Option.some_bind, mapStep, KMap.append_ordered_element, hfind,
      hlastm]
    have hskn : (skUsize n).keys.head? = some (Key.USIZE n) := rfl
    simp only [hskn, store_put_to_map_event, hmod, hins]
    simp [amInsert]

/-- Claim C6 (amended): `append_ordered_element` inserts at
`USIZE ((n+1) mod 2^64)` — the successor computed by the wrapping
`usize` addition — exactly when the first component of the largest existing
SearchKey is `USIZE n` (regardless of further components); at `USIZE 0` when
the outer key is absent, the inner map is empty, or the first component is
not a platform unsigned integer; it panics when the largest SearchKey has no
components; and `k+1` successive calls from an absent outer key, `k+1` not
exceeding `2^64`, produce inner keys exactly `USIZE 0, ..., USIZE k`. -/
theorem c6_append_ordered_characterization :
    (∀ (s : DurableKeyMapStore) (key el : Bytes),
        amFind s.store key = none →
        KMap.append_ordered_element s key el =
          some (DurableKeyMapStore.mk
            (amInsert s.store key (smInsert [] (skUsize 0) el))
            (store_put_to_map_event s.wal key (skUsize 0) el).1)) ∧
    (∀ (s : DurableKeyMapStore) (key el : Bytes) (m : SMap),
        amFind s.store key = some m → smLast m = none →
        KMap.append_ordered_element s key el =
          some (DurableKeyMapStore.mk
            (amInsert s.store key (smInsert m (skUsize 0) el))
            (store_put_to_map_event s.wal key (skUsize 0) el).1)) ∧
    (∀ (s : DurableKeyMapStore) (key el : Bytes) (m : SMap)
        (e : SearchKey × Bytes),
        amFind s.store key = some m → smLast m = some e →
        e.1.keys.head? = none →
        KMap.append_ordered_element s key el = none) ∧
    (∀ (s : DurableKeyMapStore) (key el : Bytes) (m : SMap)
        (e : SearchKey × Bytes) (n : Nat),
        amFind s.store key = some m → smLast m = some e →
        e.1.keys.head? = some (Key.USIZE n) →
        KMap.append_ordered_element s key el =
          some (DurableKeyMapStore.mk
            (amInsert s.store key
              (smInsert m (skUsize ((n+1) % 2 ^ 64)) el))
            (store_put_to_map_event s.wal key
              (skUsize ((n+1) % 2 ^ 64)) el).1)) ∧
    (∀ (s : DurableKeyMapStore) (key el : Bytes) (m : SMap)
        (e : SearchKey × Bytes) (c : Key),
        amFind s.store key = some m → smLast m = some e →
        e.1.keys.head? = some c → (∀ n, c ≠ Key.USIZE n) →
        KMap.append_ordered_element s key el =
          some (DurableKeyMapStore.mk
            (amInsert s.store key (smInsert m (skUsize 0) el))
            (store_put_to_map_event s.wal key (skUsize 0) el).1)) ∧
    (∀ (key el : Bytes) (k : Nat), k < 2 ^ 64 →
        (runMap (List.replicate (k+1)
            (MapOp.append_ordered_element key el))).map
          (fun st => amFind st.store key) =
        some (some ((List.range (k+1)).map fun i => (skUsize i, el)))) := by
  refine ⟨?_, ?_, ?_, ?_, ?_, ?_⟩
  · intro s key el h
    simp [KMap.append_ordered_element, h, store_put_to_map_event]
  · intro s key el m h1 h2
    simp [KMap.append_ordered_element, h1, h2, store_put_to_map_event]
  · intro s key el m e h1 h2 h3
    simp [KMap.append_ordered_element, h1, h2, h3]
  · intro s key el m e n h1 h2 h3
    simp [KMap.append_ordered_element, h1, h2, h3, store_put_to_map_event]
  · intro s key el m e c h1 h2 h3 hne
    cases c with
    | USIZE count => exact absurd rfl (hne count)
    | _ =>
      simp [KMap.append_ordered_element, h1, h2, h3, store_put_to_map_event]
  · intro key el k hk
    obtain ⟨w, hw⟩ := aoeRunReplicate key el k hk
    rw [hw]
    simp [amFind]

/-- Witness: on the store whose largest key under `[0]` is
`[USIZE 5, Bool true]`, insertion happens at `USIZE 6`; and two successive
calls on a fresh engine produce inner keys `USIZE 0, USIZE 1`. -/
theorem c6_append_ordered_characterization_witness :
    (KMap.append_ordered_element c6Store [0] [7] =
      some (DurableKeyMapStore.mk
        (amInsert c6Store.store [0]
          (smInsert [(⟨[Key.USIZE 5, Key.Bool true]⟩, [1])]
            (skUsize ((5+1) % 2 ^ 64)) [7]))
        (store_put_to_map_event c6Store.wal [0]
          (skUsize ((5+1) % 2 ^ 64)) [7]).1)) ∧
    ((runMap (List.replicate 2 (MapOp.append_ordered_element [0] [9]))).map
        (fun st => amFind st.store [0]) =
      some (some ((List.range 2).map fun i => (skUsize i, [9])))) :=
  ⟨c6_append_ordered_characterization.2.2.2.1 c6Store [0] [7]
      [(⟨[Key.USIZE 5, Key.Bool true]⟩, [1])]
      (⟨[Key.USIZE 5, Key.Bool true]⟩, [1]) 5
      (by decide) (by decide) (by decide),
   c6_append_ordered_characterization.2.2.2.2.2 [0] [9] 1 (by decide)⟩


/-! ### Claim C7, amended: characterization of the SearchKey ordering -/

/-- Claim C7 (amended): SearchKey comparison is lexicographic over the
component sequences; components of different variants are ordered by the
source enum declaration order (so the platform unsigned integer sorts BEFORE
the 128-bit variants), and components of the same variant compare by the
payload's natural order — the I128 variant holding a u64 payload and hence
comparing unsigned. -/
theorem c7_searchkey_order_characterization :
    (searchKeyCmp ⟨[]⟩ ⟨[]⟩ = .eq) ∧
    (∀ (b : Key) (bs : List Key), searchKeyCmp ⟨[]⟩ ⟨b :: bs⟩ = .lt) ∧
    (∀ (a : Key) (as : List Key), searchKeyCmp ⟨a :: as⟩ ⟨[]⟩ = .gt) ∧
    (∀ (a b : Key) (as bs : List Key), keyCmp a b = .eq →
        searchKeyCmp ⟨a :: as⟩ ⟨b :: bs⟩ = searchKeyCmp ⟨as⟩ ⟨bs⟩) ∧
    (∀ (a b : Key) (as bs : List Key), keyCmp a b ≠ .eq →
        searchKeyCmp ⟨a :: as⟩ ⟨b :: bs⟩ = keyCmp a b) ∧
    (∀ (a b : Key), keyDiscriminant a ≠ keyDiscriminant b →
        keyCmp a b = compare (keyDiscriminant a) (keyDiscriminant b)) ∧
    (∀ (x y : Nat), keyCmp (Key.USIZE x) (Key.I128 y) = .lt ∧
        keyCmp (Key.USIZE x) (Key.U128 y) = .lt) ∧
    (∀ (x y : Bool), keyCmp (Key.Bool x) (Key.Bool y) = compare x y) ∧
    (∀ (x y : Int), keyCmp (Key.I x) (Key.I y) = compare x y ∧
        keyCmp (Key.I16 x) (Key.I16 y) = compare x y ∧
        keyCmp (Key.I32 x) (Key.I32 y) = compare x y ∧
        keyCmp (Key.I64 x) (Key.I64 y) = compare x y) ∧
    (∀ (x y : Nat), keyCmp (Key.U8 x) (Key.U8 y) = compare x y ∧
        keyCmp (Key.U16 x) (Key.U16 y) = compare x y ∧
        keyCmp (Key.U32 x) (Key.U32 y) = compare x y ∧
        keyCmp (Key.U64 x) (Key.U64 y) = compare x y ∧
        keyCmp (Key.USIZE x) (Key.USIZE y) = compare x y ∧
        keyCmp (Key.I128 x) (Key.I128 y) = compare x y ∧
        keyCmp (Key.U128 x) (Key.U128 y) = compare x y ∧
        keyCmp (Key.Char x) (Key.Char y) = compare x y) ∧
    (∀ (x y : Bytes), keyCmp (Key.Str x) (Key.Str y) = listCmp compare x y ∧
        keyCmp (Key.Bytes x) (Key.Bytes y) = listCmp compare x y) := by
  refine ⟨rfl, fun b bs => rfl, fun a as => rfl, ?_, ?_, ?_,
    fun x y => ⟨rfl, rfl⟩, fun x y => rfl,
    fun x y => ⟨rfl, rfl, rfl, rfl⟩,
    fun x y => ⟨rfl, rfl, rfl, rfl, rfl, rfl, rfl, rfl⟩,
    fun x y => ⟨rfl, rfl⟩⟩
  · intro a b as bs h
    simp [searchKeyCmp, listCmp, h]
  · intro a b as bs h
    cases hc : keyCmp a b with
    | eq => exact absurd hc h
    | lt => simp [searchKeyCmp, listCmp, hc]
    | gt => simp [searchKeyCmp, listCmp, hc]
  · intro a b h
    cases a <;> cases b <;> first | exact absurd rfl h | rfl

/-- Witness: equal heads recurse on the tails; a `USIZE` head against an
`I128` head settles the comparison at the first component; `USIZE` against
`U128` compares by the declaration-order discriminants 9 and 11. -/
theorem c7_searchkey_order_characterization_witness :
    (searchKeyCmp ⟨[Key.USIZE 1, Key.Bool true]⟩
        ⟨[Key.USIZE 1, Key.Bool false]⟩ =
      searchKeyCmp ⟨[Key.Bool true]⟩ ⟨[Key.Bool false]⟩) ∧
    (searchKeyCmp ⟨[Key.USIZE 0]⟩ ⟨[Key.I128 0, Key.Bool true]⟩ =
      keyCmp (Key.USIZE 0) (Key.I128 0)) ∧
    (keyCmp (Key.USIZE 0) (Key.U128 5) =
      compare (keyDiscriminant (Key.USIZE 0))
        (keyDiscriminant (Key.U128 5))) :=
  ⟨c7_searchkey_order_characterization.2.2.2.1 (Key.USIZE 1) (Key.USIZE 1)
      [Key.Bool true] [Key.Bool false] (by decide),
   c7_searchkey_order_characterization.2.2.2.2.1 (Key.USIZE 0) (Key.I128 0)
      [] [Key.Bool true] (by decide),
   c7_searchkey_order_characterization.2.2.2.2.2.1 (Key.USIZE 0) (Key.U128 5)
      (by decide)⟩


end PigmentDb
